import Mathlib

/-!
# Verification of the log-structured key-value store engine

Shallow embedding of the storage engine in `src/pna/kvs/src/engines/kvs.rs`
(the concurrent `KvStore` built from `WriteContext` / `ReadContext`), of the
recovery path (`KvStore::open` / `build_index`), and of the client CLI error
reporting in `src/pna/kvs/src/bin/kvs-client.rs`.

Keys and values are byte strings (`List Nat`, each byte < 256 when produced by
the encoder).  On-disk segments are byte lists; the bincode (legacy options)
encoding used by `bincode::serialize_into` is modelled concretely: an enum
variant index as a 4-byte little-endian u32, a string as an 8-byte
little-endian u64 length followed by the raw bytes.
-/

namespace KvsSpec

abbrev Bytes := List Nat

/-- Little-endian encoding of `n` into `w` bytes (low byte first), as written
by bincode's fixint encoding. -/
def toLE : Nat → Nat → Bytes
  | 0, _ => []
  | w + 1, n => n % 256 :: toLE w (n / 256)

/-- Value of a little-endian byte string. -/
def leVal : Bytes → Nat
  | [] => 0
  | b :: t => b + 256 * leVal t

@[simp] theorem toLE_length (w n : Nat) : (toLE w n).length = w := by
  induction w generalizing n with
  | zero => rfl
  | succ w ih => simp [toLE, ih]

theorem leVal_toLE (w n : Nat) : leVal (toLE w n) = n % 256 ^ w := by
  induction w generalizing n with
  | zero => simp [toLE, leVal, Nat.mod_one]
  | succ w ih =>
    show n % 256 + 256 * leVal (toLE w (n / 256)) = n % 256 ^ (w + 1)
    rw [ih, pow_succ']
    have h1 : n % (256 * 256 ^ w) / 256 = n / 256 % 256 ^ w :=
      Nat.mod_mul_right_div_self n 256 (256 ^ w)
    have h2 : n % (256 * 256 ^ w) % 256 = n % 256 :=
      Nat.mod_mod_of_dvd n ⟨256 ^ w, rfl⟩
    omega

/-- A record written to the log: `enum LogEntry { Set(String, String), Rm(String) }`. -/
inductive LogEntry
  | set (key val : Bytes)
  | rm (key : Bytes)
  deriving DecidableEq, Repr

/-- bincode (legacy options) serialization of a `LogEntry`: variant index as
u32 little-endian, each string as u64 little-endian length plus raw bytes. -/
def encodeEntry : LogEntry → Bytes
  | .set k v => toLE 4 0 ++ (toLE 8 k.length ++ (k ++ (toLE 8 v.length ++ v)))
  | .rm k => toLE 4 1 ++ (toLE 8 k.length ++ k)

/-- Decoding failures: `eof` models `bincode::ErrorKind::Io` with
`io::ErrorKind::UnexpectedEof`; `invalid` models every other bincode error
(unknown variant index, and so on). -/
inductive DecErr
  | eof
  | invalid
  deriving DecidableEq, Repr

/-- Read exactly `n` bytes from the stream, as bincode's reader does; fewer
available bytes give `UnexpectedEof`. -/
def readN (n : Nat) (bs : Bytes) : Except DecErr (Bytes × Bytes) :=
  if n ≤ bs.length then .ok (bs.take n, bs.drop n) else .error .eof

/-- Decode one `LogEntry` from the front of the stream, returning it together
with the number of bytes consumed (`bincode::deserialize_from`). -/
def decodeEntry (bs : Bytes) : Except DecErr (LogEntry × Nat) :=
  match readN 4 bs with
  | .error e => .error e
  | .ok (tagB, r1) =>
    if leVal tagB = 0 then
      match readN 8 r1 with
      | .error e => .error e
      | .ok (klenB, r2) =>
        match readN (leVal klenB) r2 with
        | .error e => .error e
        | .ok (k, r3) =>
          match readN 8 r3 with
          | .error e => .error e
          | .ok (vlenB, r4) =>
            match readN (leVal vlenB) r4 with
            | .error e => .error e
            | .ok (v, _) => .ok (.set k v, 4 + 8 + leVal klenB + (8 + leVal vlenB))
    else if leVal tagB = 1 then
      match readN 8 r1 with
      | .error e => .error e
      | .ok (klenB, r2) =>
        match readN (leVal klenB) r2 with
        | .error e => .error e
        | .ok (k, _) => .ok (.rm k, 4 + 8 + leVal klenB)
    else .error .invalid

/-- A `LogEntry` whose string fields fit in a u64 length prefix.  In the Rust
source this holds by construction (`usize` lengths). -/
def SmallEntry : LogEntry → Prop
  | .set k v => k.length < 2 ^ 64 ∧ v.length < 2 ^ 64
  | .rm k => k.length < 2 ^ 64

instance : DecidablePred SmallEntry := fun e => by
  cases e <;> (unfold SmallEntry; infer_instance)

theorem readN_exact (xs rest : Bytes) : readN xs.length (xs ++ rest) = .ok (xs, rest) := by
  simp [readN, List.take_left, List.drop_left]

theorem readN_toLE (w t : Nat) (rest : Bytes) :
    readN w (toLE w t ++ rest) = .ok (toLE w t, rest) := by
  have h := readN_exact (toLE w t) rest
  rwa [toLE_length] at h

theorem decodeEntry_nil : decodeEntry [] = .error .eof := by
  simp [decodeEntry, readN]

theorem leVal_toLE_small (w n : Nat) (h : n < 256 ^ w) : leVal (toLE w n) = n := by
  rw [leVal_toLE]; exact Nat.mod_eq_of_lt h

/-- Round-trip: decoding from a stream that begins with an encoded entry
yields that entry and consumes exactly its encoded length. -/
theorem decodeEntry_encode (e : LogEntry) (rest : Bytes) (he : SmallEntry e) :
    decodeEntry (encodeEntry e ++ rest) = .ok (e, (encodeEntry e).length) := by
  have h256 : (256 : Nat) ^ 8 = 2 ^ 64 := by norm_num
  cases e with
  | set k v =>
    obtain ⟨hk, hv⟩ := he
    have hkl : leVal (toLE 8 k.length) = k.length := leVal_toLE_small _ _ (h256 ▸ hk)
    have hvl : leVal (toLE 8 v.length) = v.length := leVal_toLE_small _ _ (h256 ▸ hv)
    have htag : leVal (toLE 4 0) = 0 := leVal_toLE_small _ _ (by norm_num)
    simp only [encodeEntry, List.append_assoc, decodeEntry, readN_toLE, htag, hkl, hvl,
      readN_exact, if_pos]
    simp only [List.length_append, toLE_length, Except.ok.injEq, Prod.mk.injEq, true_and]
    omega
  | rm k =>
    have hkl : leVal (toLE 8 k.length) = k.length := leVal_toLE_small _ _ (h256 ▸ he)
    have htag : leVal (toLE 4 1) = 1 := leVal_toLE_small _ _ (by norm_num)
    simp only [encodeEntry, List.append_assoc, decodeEntry, readN_toLE, htag, hkl,
      readN_exact, reduceIte]
    rw [if_neg (by decide : ¬ (1:Nat) = 0)]
    simp only [List.length_append, toLE_length, Except.ok.injEq, Prod.mk.injEq,
      LogEntry.rm.injEq, eq_self_iff_true, true_and, and_true]
    omega

theorem readN_take_lt (w m : Nat) (s : Bytes) (h : m < w) :
    readN w (s.take m) = .error .eof := by
  have : (s.take m).length ≤ m := by simp [List.length_take]
  simp only [readN]
  rw [if_neg (by omega)]

theorem take_append_of_le (x rest : Bytes) (m : Nat) (h : x.length ≤ m) :
    (x ++ rest).take m = x ++ rest.take (m - x.length) := by
  rw [List.take_append_eq_append_take, List.take_of_length_le h]

/-- A strict prefix of an encoded entry (a partially written trailing record)
always decodes to `UnexpectedEof`, never to a value or another error. -/
theorem decodeEntry_take_prefix (e : LogEntry) (he : SmallEntry e) (m : Nat)
    (hm : m < (encodeEntry e).length) :
    decodeEntry ((encodeEntry e).take m) = .error .eof := by
  have h256 : (256 : Nat) ^ 8 = 2 ^ 64 := by norm_num
  cases e with
  | set k v =>
    obtain ⟨hk, hv⟩ := he
    have hkl : leVal (toLE 8 k.length) = k.length := leVal_toLE_small _ _ (h256 ▸ hk)
    have htag : leVal (toLE 4 0) = 0 := leVal_toLE_small _ _ (by norm_num)
    have hlen : (encodeEntry (.set k v)).length = 4 + 8 + k.length + 8 + v.length := by
      simp [encodeEntry]; omega
    rw [hlen] at hm
    simp only [encodeEntry]
    by_cases h1 : m < 4
    · rw [decodeEntry, readN_take_lt _ _ _ h1]
    · rw [take_append_of_le _ _ _ (by simp; omega)]
      simp only [decodeEntry, readN_toLE, htag, reduceIte, toLE_length]
      by_cases h2 : m - 4 < 8
      · rw [readN_take_lt _ _ _ h2]
      · rw [take_append_of_le _ _ _ (by simp; omega)]
        simp only [readN_toLE, hkl, toLE_length]
        by_cases h3 : m - 4 - 8 < k.length
        · rw [readN_take_lt _ _ _ h3]
        · rw [take_append_of_le _ _ _ (by omega)]
          have e3 : readN k.length (k ++ ((toLE 8 v.length ++ v).take (m - 4 - 8 - k.length)))
              = .ok (k, (toLE 8 v.length ++ v).take (m - 4 - 8 - k.length)) :=
            readN_exact k _
          by_cases h4 : m - 4 - 8 - k.length < 8
          · have e4 : readN 8 ((toLE 8 v.length ++ v).take (m - 4 - 8 - k.length))
                = .error .eof := readN_take_lt _ _ _ h4
            simp only [e3, e4]
          · have hvl : leVal (toLE 8 v.length) = v.length := leVal_toLE_small _ _ (h256 ▸ hv)
            have e5 : (toLE 8 v.length ++ v).take (m - 4 - 8 - k.length)
                = toLE 8 v.length ++ v.take (m - 4 - 8 - k.length - 8) := by
              rw [take_append_of_le _ _ _ (by simp; omega), toLE_length]
            have e3b : readN k.length
                (k ++ (toLE 8 v.length ++ v.take (m - 4 - 8 - k.length - 8)))
                = .ok (k, toLE 8 v.length ++ v.take (m - 4 - 8 - k.length - 8)) :=
              readN_exact k _
            have e6 : readN (leVal (toLE 8 v.length)) (v.take (m - 4 - 8 - k.length - 8))
                = .error .eof := by
              rw [hvl]; exact readN_take_lt _ _ _ (by omega)
            simp only [e5, e3b, readN_toLE, e6]
  | rm k =>
    have hkl : leVal (toLE 8 k.length) = k.length := leVal_toLE_small _ _ (h256 ▸ he)
    have htag : leVal (toLE 4 1) = 1 := leVal_toLE_small _ _ (by norm_num)
    have hlen : (encodeEntry (.rm k)).length = 4 + 8 + k.length := by
      simp [encodeEntry]; omega
    rw [hlen] at hm
    simp only [encodeEntry]
    by_cases h1 : m < 4
    · rw [decodeEntry, readN_take_lt _ _ _ h1]
    · rw [take_append_of_le _ _ _ (by simp; omega)]
      simp only [decodeEntry, readN_toLE, htag, toLE_length]
      rw [if_neg (by decide : ¬ (1:Nat) = 0)]
      simp only [eq_self_iff_true, ite_true, if_true]
      by_cases h2 : m - 4 < 8
      · rw [readN_take_lt _ _ _ h2]
      · rw [take_append_of_le _ _ _ (by simp; omega)]
        simp only [readN_toLE, hkl, toLE_length]
        rw [readN_take_lt _ _ _ (by omega)]

/-! ## Association lists

`BTreeMap<K, V>` is modelled as an association list with unique keys.  The
map's iteration order (sorted by key in the source) is modelled by the list
order; no claim below observes the relative placement of distinct keys. -/

section AList

variable {α : Type} {β : Type} [DecidableEq α]

/-- `BTreeMap::get`. -/
def alookup : List (α × β) → α → Option β
  | [], _ => none
  | (a, b) :: t, k => if k = a then some b else alookup t k

/-- `BTreeMap::insert` (replace the binding if the key is present, keep list
order stable; append fresh keys at the end). -/
def ainsert : List (α × β) → α → β → List (α × β)
  | [], k, v => [(k, v)]
  | (a, b) :: t, k, v => if k = a then (a, v) :: t else (a, b) :: ainsert t k v

/-- `BTreeMap::remove`. -/
def aerase : List (α × β) → α → List (α × β)
  | [], _ => []
  | (a, b) :: t, k => if k = a then t else (a, b) :: aerase t k

@[simp] theorem alookup_nil (k : α) : alookup ([] : List (α × β)) k = none := rfl

theorem alookup_cons (a : α) (b : β) (t : List (α × β)) (k : α) :
    alookup ((a, b) :: t) k = if k = a then some b else alookup t k := rfl

@[simp] theorem alookup_ainsert_self (l : List (α × β)) (k : α) (v : β) :
    alookup (ainsert l k v) k = some v := by
  induction l with
  | nil => simp [ainsert, alookup]
  | cons p t ih =>
    obtain ⟨a, b⟩ := p
    by_cases h : k = a
    · simp [ainsert, h, alookup]
    · simp [ainsert, h, alookup, ih]

theorem alookup_ainsert_ne (l : List (α × β)) (k q : α) (v : β) (h : q ≠ k) :
    alookup (ainsert l k v) q = alookup l q := by
  induction l with
  | nil => simp [ainsert, alookup, h]
  | cons p t ih =>
    obtain ⟨a, b⟩ := p
    by_cases hka : k = a
    · subst hka
      simp [ainsert, alookup, h]
    · by_cases hqa : q = a <;> simp [ainsert, hka, alookup, hqa, ih]

theorem alookup_aerase_ne (l : List (α × β)) (k q : α) (h : q ≠ k) :
    alookup (aerase l k) q = alookup l q := by
  induction l with
  | nil => simp [aerase]
  | cons p t ih =>
    obtain ⟨a, b⟩ := p
    by_cases hka : k = a
    · subst hka
      simp [aerase, alookup, h]
    · by_cases hqa : q = a <;> simp [aerase, hka, alookup, hqa, ih]

theorem alookup_eq_none (l : List (α × β)) (k : α) :
    alookup l k = none ↔ k ∉ l.map Prod.fst := by
  induction l with
  | nil => simp
  | cons p t ih =>
    obtain ⟨a, b⟩ := p
    by_cases h : k = a <;> simp [alookup, h, ih]

theorem alookup_isSome (l : List (α × β)) (k : α) :
    (alookup l k).isSome ↔ k ∈ l.map Prod.fst := by
  cases hl : alookup l k with
  | none =>
    simp only [Option.isSome_none, Bool.false_eq_true, false_iff]
    exact (alookup_eq_none l k).mp hl
  | some v =>
    simp only [Option.isSome_some, true_iff]
    have := (alookup_eq_none l k).not
    by_contra hmem
    exact absurd ((alookup_eq_none l k).mpr hmem) (by simp [hl])

theorem alookup_aerase_self (l : List (α × β)) (k : α)
    (h : (l.map Prod.fst).Nodup) : alookup (aerase l k) k = none := by
  induction l with
  | nil => simp [aerase]
  | cons p t ih =>
    obtain ⟨a, b⟩ := p
    simp only [List.map_cons, List.nodup_cons] at h
    by_cases hka : k = a
    · subst hka
      simpa [aerase, alookup, alookup_eq_none] using h.1
    · simp [aerase, hka, alookup, ih h.2]

theorem alookup_mem (l : List (α × β)) (k : α) (v : β) :
    alookup l k = some v → (k, v) ∈ l := by
  induction l with
  | nil => intro h; simp at h
  | cons p t ih =>
    obtain ⟨a, b⟩ := p
    intro h
    by_cases hka : k = a
    · subst hka
      simp [alookup] at h
      simp [h]
    · simp only [alookup, hka, if_false] at h
      exact List.mem_cons_of_mem _ (ih h)

theorem mem_ainsert (l : List (α × β)) (k : α) (v : β) (p : α × β) :
    p ∈ ainsert l k v → p = (k, v) ∨ p ∈ l := by
  induction l with
  | nil => intro h; simp [ainsert] at h; simp [h]
  | cons q t ih =>
    obtain ⟨a, b⟩ := q
    intro h
    by_cases hka : k = a
    · subst hka
      simp [ainsert] at h
      rcases h with h | h
      · exact Or.inl h
      · exact Or.inr (List.mem_cons_of_mem _ h)
    · simp only [ainsert, if_neg hka, List.mem_cons] at h
      rcases h with h | h
      · exact Or.inr (by simp [h])
      · rcases ih h with h' | h'
        · exact Or.inl h'
        · exact Or.inr (List.mem_cons_of_mem _ h')

theorem mem_aerase (l : List (α × β)) (k : α) (p : α × β) :
    p ∈ aerase l k → p ∈ l := by
  induction l with
  | nil => intro h; simp [aerase] at h
  | cons q t ih =>
    obtain ⟨a, b⟩ := q
    intro h
    by_cases hka : k = a
    · simp only [aerase, if_pos hka] at h
      exact List.mem_cons_of_mem _ h
    · simp only [aerase, if_neg hka, List.mem_cons] at h
      rcases h with h | h
      · simp [h]
      · exact List.mem_cons_of_mem _ (ih h)

theorem keys_ainsert_of_mem (l : List (α × β)) (k : α) (v : β)
    (h : k ∈ l.map Prod.fst) : (ainsert l k v).map Prod.fst = l.map Prod.fst := by
  induction l with
  | nil => simp at h
  | cons q t ih =>
    obtain ⟨a, b⟩ := q
    by_cases hka : k = a
    · subst hka; simp [ainsert]
    · simp only [List.map_cons, List.mem_cons] at h
      rcases h with h | h
      · exact absurd h hka
      · simp [ainsert, hka, ih h]

theorem ainsert_of_not_mem (l : List (α × β)) (k : α) (v : β)
    (h : k ∉ l.map Prod.fst) : ainsert l k v = l ++ [(k, v)] := by
  induction l with
  | nil => rfl
  | cons q t ih =>
    obtain ⟨a, b⟩ := q
    simp only [List.map_cons, List.mem_cons] at h
    push_neg at h
    simp [ainsert, h.1, ih h.2]

theorem nodup_keys_ainsert (l : List (α × β)) (k : α) (v : β)
    (h : (l.map Prod.fst).Nodup) : ((ainsert l k v).map Prod.fst).Nodup := by
  by_cases hk : k ∈ l.map Prod.fst
  · rwa [keys_ainsert_of_mem _ _ _ hk]
  · rw [ainsert_of_not_mem _ _ _ hk]
    simp only [List.map_append, List.map_cons, List.map_nil]
    rw [List.nodup_append]
    refine ⟨h, List.nodup_singleton _, ?_⟩
    intro a ha hmem
    simp only [List.mem_cons, List.not_mem_nil, or_false] at hmem
    exact hk (hmem ▸ ha)

theorem keys_aerase_sublist (l : List (α × β)) (k : α) :
    ((aerase l k).map Prod.fst).Sublist (l.map Prod.fst) := by
  induction l with
  | nil => simp [aerase]
  | cons q t ih =>
    obtain ⟨a, b⟩ := q
    by_cases hka : k = a
    · simp only [aerase, if_pos hka, List.map_cons]
      exact (List.sublist_cons_self _ _)
    · simp only [aerase, if_neg hka, List.map_cons]
      exact ih.cons₂ _

theorem nodup_keys_aerase (l : List (α × β)) (k : α)
    (h : (l.map Prod.fst).Nodup) : ((aerase l k).map Prod.fst).Nodup :=
  (keys_aerase_sublist l k).nodup h

theorem alookup_append_left (l₁ l₂ : List (α × β)) (k : α)
    (h : k ∈ l₁.map Prod.fst) : alookup (l₁ ++ l₂) k = alookup l₁ k := by
  induction l₁ with
  | nil => simp at h
  | cons q t ih =>
    obtain ⟨a, b⟩ := q
    by_cases hka : k = a
    · simp [alookup, hka]
    · simp only [List.map_cons, List.mem_cons] at h
      rcases h with h | h
      · exact absurd h hka
      · simp [alookup, hka, ih h]

theorem alookup_append_right (l₁ l₂ : List (α × β)) (k : α)
    (h : k ∉ l₁.map Prod.fst) : alookup (l₁ ++ l₂) k = alookup l₂ k := by
  induction l₁ with
  | nil => simp
  | cons q t ih =>
    obtain ⟨a, b⟩ := q
    simp only [List.map_cons, List.mem_cons] at h
    push_neg at h
    simp [alookup, h.1, ih h.2]

end AList

/-! ## The store state

`KvStore` state, as owned by `WriteContext` (writer position, active
generation, garbage counter, index) together with the on-disk segment files.
The reader-handle caches (`ReadContext::readers`, `merge_gen`,
`drop_stale_readers`) only manage file handles; sequentially they are not
observable, and `get` is modelled as reading the segment file directly. -/

/-- `struct LogIndex { gen, pos, len }`. -/
structure LogIndex where
  gen : Nat
  pos : Nat
  len : Nat
  deriving DecidableEq, Repr

abbrev Index := List (Bytes × LogIndex)

/-- On-disk segment files, keyed by generation (`gen-<N>.log`), kept in
ascending generation order (an invariant of every reachable state). -/
abbrev Files := List (Nat × Bytes)

/-- Engine errors (`ErrorKind` in `error.rs`), restricted to the kinds the
storage paths can produce. -/
inductive Err
  | keyNotFound
  | corruptedLog
  | ioError
  | decodeError
  deriving DecidableEq, Repr

/-- `const GARBAGE_THRESHOLD: u64 = 4 * 1024 * 1024;` -/
def GARBAGE_THRESHOLD : Nat := 4 * 1024 * 1024

structure KvState where
  files : Files
  index : Index
  gen : Nat
  wpos : Nat
  garbage : Nat
  deriving DecidableEq, Repr

/-- Append bytes to the segment file of generation `g` (the writer's
`serialize_into` + `flush` on its append handle). -/
def appendToFile : Files → Nat → Bytes → Files
  | [], _, _ => []
  | (g', f) :: t, g, bs => if g = g' then (g', f ++ bs) :: t else (g', f) :: appendToFile t g bs

@[simp] theorem appendToFile_nil (g : Nat) (bs : Bytes) : appendToFile [] g bs = [] := rfl

theorem alookup_appendToFile_self (fs : Files) (g : Nat) (bs : Bytes) :
    alookup (appendToFile fs g bs) g = (alookup fs g).map (· ++ bs) := by
  induction fs with
  | nil => simp
  | cons p t ih =>
    obtain ⟨g', f⟩ := p
    by_cases h : g = g' <;> simp [appendToFile, h, alookup, ih]

theorem alookup_appendToFile_ne (fs : Files) (g q : Nat) (bs : Bytes) (h : q ≠ g) :
    alookup (appendToFile fs g bs) q = alookup fs q := by
  induction fs with
  | nil => simp
  | cons p t ih =>
    obtain ⟨g', f⟩ := p
    by_cases hg : g = g'
    · subst hg
      simp [appendToFile, alookup, h, ih]
    · by_cases hq : q = g' <;> simp [appendToFile, hg, alookup, hq, ih]

theorem keys_appendToFile (fs : Files) (g : Nat) (bs : Bytes) :
    (appendToFile fs g bs).map Prod.fst = fs.map Prod.fst := by
  induction fs with
  | nil => simp
  | cons p t ih =>
    obtain ⟨g', f⟩ := p
    by_cases h : g = g' <;> simp [appendToFile, h, ih]

/-- The bytes an entry's location points at: seek to `pos`, take `len` bytes
(`reader.seek(SeekFrom::Start(pos))` + `reader.take(len)`).  A missing
segment file cannot occur in a reachable state (the writer would fail to
open it); it is modelled as an empty read. -/
def readRegion (files : Files) (li : LogIndex) : Bytes :=
  match alookup files li.gen with
  | some f => (f.drop li.pos).take li.len
  | none => []

/-- The copy loop of `WriteContext::merge`: for each live index entry in
iteration order, copy its `len` bytes to the merge log at the current merge
position and rewrite the entry to `{merge_gen, merge_pos, len}`.  Returns the
merged segment contents (appended after `mf`) and the rewritten index. -/
def mergeEntries (files : Files) (mgen : Nat) : Index → Bytes → Bytes × Index
  | [], mf => (mf, [])
  | (k, li) :: rest, mf =>
    let bytes := readRegion files li
    let res := mergeEntries files mgen rest (mf ++ bytes)
    (res.1, (k, ⟨mgen, mf.length, li.len⟩) :: res.2)

/-- `WriteContext::merge`: write all live records to generation `gen + 1`,
open a fresh active segment `gen + 2`, delete all segments with generation
below the merge generation, reset the garbage counter. -/
def KvState.merge (st : KvState) : KvState :=
  let mergeGen := st.gen + 1
  let newGen := st.gen + 2
  let res := mergeEntries st.files mergeGen st.index []
  { files := st.files.filter (fun p => decide (mergeGen ≤ p.1)) ++ [(mergeGen, res.1), (newGen, [])]
    index := res.2
    gen := newGen
    wpos := 0
    garbage := 0 }

/-- `WriteContext::set` (all I/O succeeding): append `Set(key, val)` at the
current writer position, flush, insert the location into the index; if the
insert superseded an entry, add its length to garbage and compact when the
threshold is exceeded. -/
def KvState.set (st : KvState) (key val : Bytes) : KvState :=
  let bytes := encodeEntry (.set key val)
  let li : LogIndex := ⟨st.gen, st.wpos, bytes.length⟩
  let prev := alookup st.index key
  let st1 : KvState :=
    { st with
      files := appendToFile st.files st.gen bytes
      wpos := st.wpos + bytes.length
      index := ainsert st.index key li }
  match prev with
  | none => st1
  | some p =>
    let st2 := { st1 with garbage := st1.garbage + p.len }
    if GARBAGE_THRESHOLD < st2.garbage then st2.merge else st2

/-- `WriteContext::remove` (all I/O succeeding): fail with `KeyNotFound` when
the key has no index entry; otherwise append a `Rm(key)` tombstone, erase the
entry, add its length to garbage and compact when the threshold is
exceeded. -/
def KvState.remove (st : KvState) (key : Bytes) : Except Err KvState :=
  match alookup st.index key with
  | none => .error .keyNotFound
  | some p =>
    let bytes := encodeEntry (.rm key)
    let st1 : KvState :=
      { st with
        files := appendToFile st.files st.gen bytes
        wpos := st.wpos + bytes.length
        index := aerase st.index key
        garbage := st.garbage + p.len }
    if GARBAGE_THRESHOLD < st1.garbage then .ok st1.merge else .ok st1

/-- `ReadContext::get`: copy the location out of the index; absent means
`Ok(None)`.  Otherwise open the segment (`open_log` failure is an I/O error),
seek to the offset and decode one record: a `Set` yields its value, anything
else is `CorruptedLog`; a bincode failure propagates. -/
def KvState.get (st : KvState) (key : Bytes) : Except Err (Option Bytes) :=
  match alookup st.index key with
  | none => .ok none
  | some li =>
    match alookup st.files li.gen with
    | none => .error .ioError
    | some f =>
      match decodeEntry (f.drop li.pos) with
      | .error _ => .error .decodeError
      | .ok (.set _ v, _) => .ok (some v)
      | .ok (.rm _, _) => .error .corruptedLog

theorem decodeEntry_ok_pos (bs : Bytes) (e : LogEntry) (n : Nat)
    (h : decodeEntry bs = .ok (e, n)) : 0 < n := by
  simp only [decodeEntry] at h
  repeat' split at h
  all_goals simp_all
  all_goals omega

/-! ## Recovery: `build_index` and `KvStore::open` -/

/-- The decode loop of `build_index`: starting at stream position `pos`,
decode records until the end of the stream.  A `Set` inserts a location for
the just-read record (superseded entries add their length to garbage); a
`Rm` erases the entry (adding its length to garbage).  `UnexpectedEof` ends
the scan normally; any other decoding failure is propagated as an error. -/
def buildLoop (bytes : Bytes) (pos : Nat) (idx : Index) (garbage : Nat) (gen : Nat) :
    Except DecErr (Index × Nat) :=
  match h : decodeEntry bytes with
  | .error .eof => .ok (idx, garbage)
  | .error .invalid => .error .invalid
  | .ok (e, n) =>
    match e with
    | .set k _ =>
      let garbage' := match alookup idx k with
        | some p => garbage + p.len
        | none => garbage
      buildLoop (bytes.drop n) (pos + n) (ainsert idx k ⟨gen, pos, n⟩) garbage' gen
    | .rm k =>
      let garbage' := match alookup idx k with
        | some p => garbage + p.len
        | none => garbage
      buildLoop (bytes.drop n) (pos + n) (aerase idx k) garbage' gen
termination_by bytes.length
decreasing_by
  all_goals
    have hp := decodeEntry_ok_pos _ _ _ h
    have hne : bytes ≠ [] := by
      rintro rfl
      rw [decodeEntry_nil] at h
      cases h
    have hlen : 0 < bytes.length := List.length_pos.mpr hne
    simp only [List.length_drop]
    omega

/-- `build_index`: scan one segment from offset 0 into the shared index,
returning the rewritten index and this segment's garbage contribution. -/
def buildIndex (reader : Bytes) (index_map : Index) (gen : Nat) :
    Except DecErr (Index × Nat) :=
  buildLoop reader 0 index_map 0 gen

/-- The replay loop of `KvStore::open`: segments in ascending generation
order, one shared index, garbage contributions summed. -/
def buildAllAux : Files → Index → Nat → Except DecErr (Index × Nat)
  | [], idx, garbage => .ok (idx, garbage)
  | (g, f) :: t, idx, garbage =>
    match buildIndex f idx g with
    | .error e => .error e
    | .ok (idx', gseg) => buildAllAux t idx' (garbage + gseg)

def buildAll (files : Files) : Except DecErr (Index × Nat) := buildAllAux files [] 0

/-- `KvStore::open` on a directory containing `files`: replay all segments
(the source sorts generations ascending; reachable file lists are already
ascending), then create a fresh active segment with the next generation. -/
def openStore (files : Files) : Except DecErr KvState :=
  match buildAll files with
  | .error e => .error e
  | .ok (idx, garbage) =>
    let gen := match (files.map Prod.fst).getLast? with
      | some l => l + 1
      | none => 0
    .ok { files := files ++ [(gen, [])], index := idx, gen := gen, wpos := 0,
          garbage := garbage }

/-- `KvStore::open` on an empty directory: no segments to replay, a fresh
`gen-0.log` is created. -/
def openFresh : KvState :=
  { files := [(0, [])], index := [], gen := 0, wpos := 0, garbage := 0 }

theorem openStore_nil : openStore [] = .ok openFresh := rfl

/-! ## Operation sequences and the declarative specification -/

inductive Op
  | set (k v : Bytes)
  | rm (k : Bytes)
  deriving DecidableEq, Repr

/-- Apply one facade operation; a failed `remove` (absent key) leaves the
state unchanged. -/
def applyOp (st : KvState) : Op → KvState
  | .set k v => st.set k v
  | .rm k =>
    match st.remove k with
    | .ok st' => st'
    | .error _ => st

def applyOps (ops : List Op) (st : KvState) : KvState := ops.foldl applyOp st

/-- Modelled from the spec (P1): the declarative store contents after a
sequence of operations — `get(k)` is the value of the most recent `set(k, v)`
not followed by `remove(k)` or a later `set(k, v')`. -/
def specApply (m : Bytes → Option Bytes) : Op → Bytes → Option Bytes
  | .set k v, q => if q = k then some v else m q
  | .rm k, q => if q = k then none else m q

/-- Modelled from the spec (P1): the expected result of `get(q)` after
running `ops` on a fresh store. -/
def specRun (ops : List Op) (q : Bytes) : Option Bytes :=
  (ops.foldl specApply fun _ => none) q

/-- Operations whose key/value lengths fit in u64 (always true of Rust
strings). -/
def SmallOp : Op → Prop
  | .set k v => k.length < 2 ^ 64 ∧ v.length < 2 ^ 64
  | .rm k => k.length < 2 ^ 64

instance : DecidablePred SmallOp := fun o => by
  cases o <;> (unfold SmallOp; infer_instance)

/-! ## Fallible variants

`set`/`remove` with an explicit I/O failure point, mirroring the order of
fallible operations in the source.  The result pairs the returned error (if
any) with the state of the writer context after the call. -/

/-- Failure points of `WriteContext::set`/`remove`, in source order:
`serialize_into` (the append), `flush`, and the first fallible operation of
`merge` (`create_log` for the merge generation). -/
inductive FailPoint
  | serialize
  | flush
  | mergeStart
  deriving DecidableEq, Repr

/-- `WriteContext::set` with an injected failure.  A failed serialize leaves
the on-disk state and index untouched; a failed flush has advanced the
tracked writer position but put nothing durable on disk; a failure inside
`merge` returns the error after the append, index insert and garbage update
have already happened. -/
def KvState.setFallible (st : KvState) (key val : Bytes) (fail? : Option FailPoint) :
    Option Err × KvState :=
  if fail? = some .serialize then (some .ioError, st)
  else
    let bytes := encodeEntry (.set key val)
    if fail? = some .flush then (some .ioError, { st with wpos := st.wpos + bytes.length })
    else
      let li : LogIndex := ⟨st.gen, st.wpos, bytes.length⟩
      let prev := alookup st.index key
      let st1 : KvState :=
        { st with
          files := appendToFile st.files st.gen bytes
          wpos := st.wpos + bytes.length
          index := ainsert st.index key li }
      match prev with
      | none => (none, st1)
      | some p =>
        let st2 := { st1 with garbage := st1.garbage + p.len }
        if GARBAGE_THRESHOLD < st2.garbage then
          if fail? = some .mergeStart then (some .ioError, st2)
          else (none, st2.merge)
        else (none, st2)

/-- `WriteContext::remove` with an injected failure; the `KeyNotFound` check
precedes any write. -/
def KvState.removeFallible (st : KvState) (key : Bytes) (fail? : Option FailPoint) :
    Option Err × KvState :=
  match alookup st.index key with
  | none => (some .keyNotFound, st)
  | some p =>
    if fail? = some .serialize then (some .ioError, st)
    else
      let bytes := encodeEntry (.rm key)
      if fail? = some .flush then (some .ioError, { st with wpos := st.wpos + bytes.length })
      else
        let st1 : KvState :=
          { st with
            files := appendToFile st.files st.gen bytes
            wpos := st.wpos + bytes.length
            index := aerase st.index key
            garbage := st.garbage + p.len }
        if GARBAGE_THRESHOLD < st1.garbage then
          if fail? = some .mergeStart then (some .ioError, st1)
          else (none, st1.merge)
        else (none, st1)

/-- With no injected failure, `setFallible` succeeds and computes `set`. -/
theorem setFallible_none (st : KvState) (key val : Bytes) :
    st.setFallible key val none = (none, st.set key val) := by
  unfold KvState.setFallible KvState.set
  rw [if_neg (by simp), if_neg (by simp)]
  cases halookup : alookup st.index key with
  | none => rfl
  | some p =>
    simp only []
    by_cases hg : GARBAGE_THRESHOLD < st.garbage + p.len
    · rw [if_pos hg, if_pos hg, if_neg (by simp)]
    · rw [if_neg hg, if_neg hg]

/-- With no injected failure, `removeFallible` agrees with `remove`. -/
theorem removeFallible_none (st : KvState) (key : Bytes) :
    st.removeFallible key none =
      match st.remove key with
      | .ok st' => (none, st')
      | .error e => (some e, st) := by
  unfold KvState.removeFallible KvState.remove
  cases halookup : alookup st.index key with
  | none => rfl
  | some p =>
    simp only []
    rw [if_neg (by simp), if_neg (by simp)]
    by_cases hg : GARBAGE_THRESHOLD < st.garbage + p.len
    · rw [if_pos hg, if_pos hg, if_neg (by simp)]
    · rw [if_neg hg, if_neg hg]

/-! ## Invariants of reachable states -/

/-- Invariant I1 at byte level, with an explicit value witness: the entry's
location points at a complete encoded `Set(k, v)` record inside its segment
file. -/
def ValidEntryV (files : Files) (k : Bytes) (li : LogIndex) (v : Bytes) : Prop :=
  ∃ f, alookup files li.gen = some f ∧
    (f.drop li.pos).take li.len = encodeEntry (.set k v) ∧
    li.len = (encodeEntry (.set k v)).length ∧
    SmallEntry (.set k v)

def ValidEntry (files : Files) (k : Bytes) (li : LogIndex) : Prop :=
  ∃ v, ValidEntryV files k li v

/-- A segment file is a concatenation of complete encoded records. -/
def SegWf (f : Bytes) : Prop :=
  ∃ es : List LogEntry, f = (es.map encodeEntry).flatten ∧ ∀ e ∈ es, SmallEntry e

/-- The state invariant maintained by every reachable store: segment files
keyed by strictly ascending generations all at most the active one (which is
last and whose length is the writer position); all files are concatenations
of records; the index has unique keys, every entry points at a valid `Set`
record, and replaying the files rebuilds exactly the index and garbage
counter. -/
structure Inv (st : KvState) : Prop where
  keysAsc : (st.files.map Prod.fst).Pairwise (· < ·)
  gensLe : ∀ g ∈ st.files.map Prod.fst, g ≤ st.gen
  lastGen : (st.files.map Prod.fst).getLast? = some st.gen
  active : ∃ af, alookup st.files st.gen = some af ∧ st.wpos = af.length
  segsWf : ∀ p ∈ st.files, SegWf p.2
  idxNodup : (st.index.map Prod.fst).Nodup
  valid : ∀ p ∈ st.index, ValidEntry st.files p.1 p.2
  replay : buildAll st.files = .ok (st.index, st.garbage)

theorem encodeEntry_length_pos (e : LogEntry) : 0 < (encodeEntry e).length := by
  cases e <;> simp [encodeEntry]

theorem ValidEntryV.pos_len_le (files : Files) (k : Bytes) (li : LogIndex) (v : Bytes)
    (h : ValidEntryV files k li v) :
    ∃ f, alookup files li.gen = some f ∧ li.pos + li.len ≤ f.length := by
  obtain ⟨f, hf, hregion, hlen, _⟩ := h
  refine ⟨f, hf, ?_⟩
  have h1 : ((f.drop li.pos).take li.len).length = li.len := by
    rw [hregion, hlen]
  have h2 : ((f.drop li.pos).take li.len).length = min li.len (f.length - li.pos) := by
    simp [List.length_take, List.length_drop]
  have h3 : 0 < li.len := by
    rw [hlen]; exact encodeEntry_length_pos _
  omega

/-- The decoded record at a valid location: exactly the `Set(k, v)` the entry
was created from. -/
theorem ValidEntryV.decode (files : Files) (k : Bytes) (li : LogIndex) (v : Bytes)
    (h : ValidEntryV files k li v) :
    ∃ f, alookup files li.gen = some f ∧
      decodeEntry (f.drop li.pos) = .ok (.set k v, li.len) := by
  obtain ⟨f, hf, hregion, hlen, hsmall⟩ := h
  refine ⟨f, hf, ?_⟩
  have hsplit : f.drop li.pos
      = (f.drop li.pos).take li.len ++ (f.drop li.pos).drop li.len :=
    (List.take_append_drop _ _).symm
  rw [hsplit, hregion]
  rw [decodeEntry_encode _ _ hsmall, ← hlen]

/-- `get` on a key with a valid index entry returns its recorded value. -/
theorem get_of_validV (st : KvState) (q : Bytes) (li : LogIndex) (v : Bytes)
    (hq : alookup st.index q = some li) (hv : ValidEntryV st.files q li v) :
    st.get q = .ok (some v) := by
  obtain ⟨f, hf, hdec⟩ := ValidEntryV.decode _ _ _ _ hv
  simp only [KvState.get, hq, hf, hdec]

/-- `get` on a key with no index entry returns `None`. -/
theorem get_of_absent (st : KvState) (q : Bytes) (hq : alookup st.index q = none) :
    st.get q = .ok none := by
  simp only [KvState.get, hq]

/-- Under the invariant, `get` never reports an absent key as present and
vice versa. -/
theorem Inv.get_some_iff (st : KvState) (hInv : Inv st) (q : Bytes) :
    (∃ v, st.get q = .ok (some v)) ↔ (alookup st.index q).isSome := by
  cases hq : alookup st.index q with
  | none => simp [get_of_absent st q hq]
  | some li =>
    simp only [Option.isSome_some, iff_true]
    obtain ⟨v, hv⟩ := hInv.valid (q, li) (alookup_mem _ _ _ hq)
    exact ⟨v, get_of_validV st q li v hq hv⟩

/-! ## Unfolding lemmas for the recovery loop -/

theorem buildLoop_eof (bytes : Bytes) (pos : Nat) (idx : Index) (g gen : Nat)
    (h : decodeEntry bytes = .error .eof) :
    buildLoop bytes pos idx g gen = .ok (idx, g) := by
  rw [buildLoop.eq_def]
  split <;> simp_all

theorem buildLoop_invalid (bytes : Bytes) (pos : Nat) (idx : Index) (g gen : Nat)
    (h : decodeEntry bytes = .error .invalid) :
    buildLoop bytes pos idx g gen = .error .invalid := by
  rw [buildLoop.eq_def]
  split <;> simp_all

theorem buildLoop_set (bytes : Bytes) (pos : Nat) (idx : Index) (g gen : Nat)
    (k v : Bytes) (n : Nat) (h : decodeEntry bytes = .ok (.set k v, n)) :
    buildLoop bytes pos idx g gen
      = buildLoop (bytes.drop n) (pos + n) (ainsert idx k ⟨gen, pos, n⟩)
          (match alookup idx k with | some p => g + p.len | none => g) gen := by
  rw [buildLoop.eq_def]
  split <;> simp_all
  obtain ⟨rfl, rfl⟩ := h
  rfl

theorem buildLoop_rm (bytes : Bytes) (pos : Nat) (idx : Index) (g gen : Nat)
    (k : Bytes) (n : Nat) (h : decodeEntry bytes = .ok (.rm k, n)) :
    buildLoop bytes pos idx g gen
      = buildLoop (bytes.drop n) (pos + n) (aerase idx k)
          (match alookup idx k with | some p => g + p.len | none => g) gen := by
  rw [buildLoop.eq_def]
  split <;> simp_all
  obtain ⟨rfl, rfl⟩ := h
  rfl

/-- Pure replay of a list of records starting at stream position `pos`:
exactly what `buildLoop` computes on their concatenation. -/
def replayFold (gen : Nat) : List LogEntry → Nat → Index → Nat → Index × Nat
  | [], _, idx, g => (idx, g)
  | e :: rest, pos, idx, g =>
    let n := (encodeEntry e).length
    match e with
    | .set k _ =>
      replayFold gen rest (pos + n) (ainsert idx k ⟨gen, pos, n⟩)
        (match alookup idx k with | some p => g + p.len | none => g)
    | .rm k =>
      replayFold gen rest (pos + n) (aerase idx k)
        (match alookup idx k with | some p => g + p.len | none => g)

/-- Scanning a concatenation of complete records followed by `extra` first
replays all the records, then continues on `extra` at the advanced
position. -/
theorem buildLoop_flatten (gen : Nat) (es : List LogEntry) (hs : ∀ e ∈ es, SmallEntry e)
    (extra : Bytes) :
    ∀ pos idx g, buildLoop ((es.map encodeEntry).flatten ++ extra) pos idx g gen
      = buildLoop extra (pos + ((es.map encodeEntry).flatten).length)
          (replayFold gen es pos idx g).1 (replayFold gen es pos idx g).2 gen := by
  induction es with
  | nil => intro pos idx g; simp [replayFold]
  | cons e rest ih =>
    intro pos idx g
    have hse : SmallEntry e := hs e (by simp)
    have hsr : ∀ x ∈ rest, SmallEntry x := fun x hx => hs x (by simp [hx])
    rw [List.map_cons, List.flatten_cons, List.append_assoc]
    have hdec : decodeEntry (encodeEntry e ++ ((rest.map encodeEntry).flatten ++ extra))
        = .ok (e, (encodeEntry e).length) := decodeEntry_encode e _ hse
    cases e with
    | set k v =>
      rw [buildLoop_set _ _ _ _ _ _ _ _ hdec, List.drop_left, ih hsr]
      simp only [replayFold, List.length_append, List.length_flatten, List.map_cons,
        List.flatten_cons, List.map_map]
      rw [← Nat.add_assoc]
    | rm k =>
      rw [buildLoop_rm _ _ _ _ _ _ _ hdec, List.drop_left, ih hsr]
      simp only [replayFold, List.length_append, List.length_flatten, List.map_cons,
        List.flatten_cons, List.map_map]
      rw [← Nat.add_assoc]

/-- A well-formed segment replays without error. -/
theorem buildLoop_of_segWf (gen : Nat) (es : List LogEntry) (hs : ∀ e ∈ es, SmallEntry e)
    (pos : Nat) (idx : Index) (g : Nat) :
    buildLoop ((es.map encodeEntry).flatten) pos idx g gen
      = .ok (replayFold gen es pos idx g) := by
  have h := buildLoop_flatten gen es hs [] pos idx g
  rw [List.append_nil] at h
  rw [h, buildLoop_eof _ _ _ _ _ decodeEntry_nil]

/-! ## Compaction lemmas -/

theorem alookup_of_mem_nodup {α β : Type} [DecidableEq α] (l : List (α × β)) (k : α) (v : β)
    (hnd : (l.map Prod.fst).Nodup) (hmem : (k, v) ∈ l) : alookup l k = some v := by
  induction l with
  | nil => simp at hmem
  | cons p t ih =>
    obtain ⟨a, b⟩ := p
    simp only [List.map_cons, List.nodup_cons] at hnd
    rcases List.mem_cons.mp hmem with h | h
    · obtain ⟨rfl, rfl⟩ := Prod.mk.inj h.symm
      simp [alookup]
    · have hka : k ≠ a := by
        rintro rfl
        exact hnd.1 (List.mem_map.mpr ⟨(k, v), h, rfl⟩)
      simp [alookup, hka, ih hnd.2 h]

theorem readRegion_of_validV (files : Files) (k : Bytes) (li : LogIndex) (v : Bytes)
    (h : ValidEntryV files k li v) : readRegion files li = encodeEntry (.set k v) := by
  obtain ⟨f, hf, hregion, _, _⟩ := h
  simp [readRegion, hf, hregion]

theorem readRegion_len_of_validV (files : Files) (k : Bytes) (li : LogIndex) (v : Bytes)
    (h : ValidEntryV files k li v) : (readRegion files li).length = li.len := by
  rw [readRegion_of_validV files k li v h]
  obtain ⟨f, hf, hregion, hlen, _⟩ := h
  exact hlen.symm

/-- The merged segment is the accumulator followed by each live entry's
copied bytes, in index order. -/
theorem mergeEntries_fst (files : Files) (mgen : Nat) (entries : Index) :
    ∀ mf0 : Bytes, (mergeEntries files mgen entries mf0).1
      = mf0 ++ (entries.map (fun p => readRegion files p.2)).flatten := by
  induction entries with
  | nil => intro mf0; simp [mergeEntries]
  | cons p rest ih =>
    intro mf0
    obtain ⟨k, li⟩ := p
    simp only [mergeEntries, ih, List.map_cons, List.flatten_cons, List.append_assoc]

theorem mergeEntries_keys (files : Files) (mgen : Nat) (entries : Index) :
    ∀ mf0 : Bytes, (mergeEntries files mgen entries mf0).2.map Prod.fst
      = entries.map Prod.fst := by
  induction entries with
  | nil => intro mf0; simp [mergeEntries]
  | cons p rest ih =>
    intro mf0
    obtain ⟨k, li⟩ := p
    simp only [mergeEntries, List.map_cons, ih]

/-- Compaction rewrites every location to the merge generation and keeps
every entry's length unchanged. -/
theorem mergeEntries_lens (files : Files) (mgen : Nat) (entries : Index) :
    ∀ mf0 : Bytes, (mergeEntries files mgen entries mf0).2.map (fun p => (p.1, p.2.len))
      = entries.map (fun p => (p.1, p.2.len)) := by
  induction entries with
  | nil => intro mf0; simp [mergeEntries]
  | cons p rest ih =>
    intro mf0
    obtain ⟨k, li⟩ := p
    simp only [mergeEntries, List.map_cons, ih]

theorem mergeEntries_gens (files : Files) (mgen : Nat) (entries : Index) :
    ∀ mf0 : Bytes, ∀ p ∈ (mergeEntries files mgen entries mf0).2, p.2.gen = mgen := by
  induction entries with
  | nil => intro mf0 p hp; simp [mergeEntries] at hp
  | cons q rest ih =>
    intro mf0 p hp
    obtain ⟨k, li⟩ := q
    simp only [mergeEntries, List.mem_cons] at hp
    rcases hp with hp | hp
    · simp [hp]
    · exact ih _ p hp

theorem SegWf.nil : SegWf [] := ⟨[], rfl, by simp⟩

theorem SegWf.append_entry (f : Bytes) (e : LogEntry) (hf : SegWf f) (he : SmallEntry e) :
    SegWf (f ++ encodeEntry e) := by
  obtain ⟨es, rfl, hs⟩ := hf
  refine ⟨es ++ [e], by simp, ?_⟩
  intro x hx
  rcases List.mem_append.mp hx with h | h
  · exact hs x h
  · simp at h; subst h; exact he

/-- Lookup correspondence through compaction: an absent key stays absent; a
present key's rewritten entry points into the merged file at bytes equal to
its original record. -/
theorem mergeEntries_lookupV (files : Files) (mgen : Nat) (entries : Index)
    (hv : ∀ p ∈ entries, ValidEntry files p.1 p.2) :
    ∀ (mf0 : Bytes) (q : Bytes),
      (alookup entries q = none → alookup (mergeEntries files mgen entries mf0).2 q = none)
      ∧ (∀ li, alookup entries q = some li →
          ∃ pq v, alookup (mergeEntries files mgen entries mf0).2 q
              = some ⟨mgen, pq, li.len⟩
            ∧ ValidEntryV files q li v
            ∧ (((mergeEntries files mgen entries mf0).1).drop pq).take li.len
                = encodeEntry (.set q v)) := by
  induction entries with
  | nil =>
    intro mf0 q
    refine ⟨fun _ => by simp [mergeEntries], fun li hli => by simp at hli⟩
  | cons p rest ih =>
    intro mf0 q
    obtain ⟨k, li⟩ := p
    obtain ⟨v, hkv⟩ := hv (k, li) (by simp)
    have hvr : ∀ p ∈ rest, ValidEntry files p.1 p.2 :=
      fun p hp => hv p (List.mem_cons_of_mem _ hp)
    have hregion : readRegion files li = encodeEntry (.set k v) :=
      readRegion_of_validV files k li v hkv
    have hrlen : (readRegion files li).length = li.len :=
      readRegion_len_of_validV files k li v hkv
    by_cases hq : q = k
    · subst hq
      constructor
      · intro h
        simp [alookup] at h
      · intro li' hli'
        rw [alookup_cons, if_pos rfl] at hli'
        obtain rfl : li = li' := Option.some.inj hli'
        refine ⟨mf0.length, v, ?_, hkv, ?_⟩
        · simp [mergeEntries, alookup]
        · have hfull : (mergeEntries files mgen ((q, li) :: rest) mf0).1
              = (mf0 ++ readRegion files li)
                ++ ((rest.map (fun p => readRegion files p.2)).flatten) := by
            simp only [mergeEntries]
            rw [mergeEntries_fst]
          rw [hfull, List.append_assoc, List.drop_left, ← hrlen, List.take_left]
          exact hregion
    · have hih := ih hvr (mf0 ++ readRegion files li) q
      constructor
      · intro h
        simp only [alookup, if_neg hq] at h
        have := hih.1 h
        simpa [mergeEntries, alookup, hq] using this
      · intro li' hli'
        simp only [alookup, if_neg hq] at hli'
        obtain ⟨pq, v', hlook, hval, hbytes⟩ := hih.2 li' hli'
        refine ⟨pq, v', ?_, hval, ?_⟩
        · simpa [mergeEntries, alookup, hq] using hlook
        · simpa [mergeEntries] using hbytes

/-- Replaying the merged segment rebuilds exactly the rewritten index with no
garbage: each live record is a fresh `Set` for its key. -/
theorem mergeEntries_replay (files : Files) (mgen : Nat) (entries : Index)
    (hv : ∀ p ∈ entries, ValidEntry files p.1 p.2)
    (hnd : (entries.map Prod.fst).Nodup) :
    ∀ (mf0 : Bytes) (idxAcc : Index) (gAcc : Nat),
      (∀ p ∈ entries, p.1 ∉ idxAcc.map Prod.fst) →
      buildLoop ((entries.map (fun p => readRegion files p.2)).flatten)
          mf0.length idxAcc gAcc mgen
        = .ok (idxAcc ++ (mergeEntries files mgen entries mf0).2, gAcc) := by
  induction entries with
  | nil =>
    intro mf0 idxAcc gAcc _
    simp [mergeEntries, buildLoop_eof _ _ _ _ _ decodeEntry_nil]
  | cons p rest ih =>
    intro mf0 idxAcc gAcc hdisj
    obtain ⟨k, li⟩ := p
    obtain ⟨v, hkv⟩ := hv (k, li) (by simp)
    have hvr : ∀ p ∈ rest, ValidEntry files p.1 p.2 :=
      fun p hp => hv p (List.mem_cons_of_mem _ hp)
    have hndr : (rest.map Prod.fst).Nodup := by
      simp only [List.map_cons, List.nodup_cons] at hnd
      exact hnd.2
    have hknotr : k ∉ rest.map Prod.fst := by
      simp only [List.map_cons, List.nodup_cons] at hnd
      exact hnd.1
    have hregion : readRegion files li = encodeEntry (.set k v) :=
      readRegion_of_validV files k li v hkv
    have hsmall : SmallEntry (.set k v) := by
      obtain ⟨f, _, _, _, hs⟩ := hkv
      exact hs
    have hrlen : (readRegion files li).length = li.len :=
      readRegion_len_of_validV files k li v hkv
    have hkabs : alookup idxAcc k = none :=
      (alookup_eq_none _ _).mpr (hdisj (k, li) (by simp))
    -- one decode step on the head record
    simp only [List.map_cons, List.flatten_cons]
    rw [hregion]
    have hdec : decodeEntry (encodeEntry (.set k v)
        ++ (rest.map (fun p => readRegion files p.2)).flatten)
        = .ok (.set k v, (encodeEntry (.set k v)).length) :=
      decodeEntry_encode _ _ hsmall
    rw [buildLoop_set _ _ _ _ _ _ _ _ hdec, List.drop_left, hkabs]
    have hlen' : (encodeEntry (.set k v)).length = li.len := by
      rw [← hregion, hrlen]
    rw [hlen']
    have hposs : mf0.length + li.len = (mf0 ++ readRegion files li).length := by
      simp [hrlen]
    rw [ainsert_of_not_mem _ _ _ ((alookup_eq_none _ _).mp hkabs), hposs]
    have hdisj' : ∀ p ∈ rest,
        p.1 ∉ (idxAcc ++ [(k, LogIndex.mk mgen mf0.length li.len)]).map Prod.fst := by
      intro p hp
      simp only [List.map_append, List.mem_append, List.map_cons, List.map_nil,
        List.mem_cons, List.not_mem_nil]
      push_neg
      refine ⟨fun hmem => hdisj p (List.mem_cons_of_mem _ hp) hmem, ?_, fun h => h⟩
      intro hpk
      exact hknotr (hpk ▸ List.mem_map.mpr ⟨p, hp, rfl⟩)
    rw [ih hvr hndr (mf0 ++ readRegion files li) _ gAcc hdisj']
    simp [mergeEntries, List.append_assoc]

theorem mergeEntries_segWf (files : Files) (mgen : Nat) (entries : Index)
    (hv : ∀ p ∈ entries, ValidEntry files p.1 p.2) :
    ∀ mf0, SegWf mf0 → SegWf (mergeEntries files mgen entries mf0).1 := by
  induction entries with
  | nil => intro mf0 h; simpa [mergeEntries] using h
  | cons p rest ih =>
    intro mf0 h
    obtain ⟨k, li⟩ := p
    obtain ⟨v, hkv⟩ := hv (k, li) (by simp)
    have hvr : ∀ p ∈ rest, ValidEntry files p.1 p.2 :=
      fun p hp => hv p (List.mem_cons_of_mem _ hp)
    have hsmall : SmallEntry (.set k v) := by
      obtain ⟨f, _, _, _, hs⟩ := hkv
      exact hs
    simp only [mergeEntries]
    refine ih hvr _ ?_
    rw [readRegion_of_validV files k li v hkv]
    exact SegWf.append_entry _ _ h hsmall

/-- The full effect of a successful compaction on a state satisfying the
invariant: the invariant is preserved, every `get` is unchanged, every index
entry now carries the merge generation, and every entry's length is
unchanged. -/
theorem merge_spec (st : KvState) (h : Inv st) :
    Inv st.merge
    ∧ (∀ q, st.merge.get q = st.get q)
    ∧ (∀ p ∈ st.merge.index, p.2.gen = st.gen + 1)
    ∧ st.merge.index.map (fun p => (p.1, p.2.len))
        = st.index.map (fun p => (p.1, p.2.len)) := by
  have hfilter : st.files.filter (fun p => decide (st.gen + 1 ≤ p.1)) = [] := by
    rw [List.filter_eq_nil_iff]
    intro p hp
    have := h.gensLe p.1 (List.mem_map.mpr ⟨p, hp, rfl⟩)
    simp
    omega
  generalize hres : mergeEntries st.files (st.gen + 1) st.index [] = res
  obtain ⟨mf, ni⟩ := res
  have hmf : (mergeEntries st.files (st.gen + 1) st.index []).1 = mf := by rw [hres]
  have hni : (mergeEntries st.files (st.gen + 1) st.index []).2 = ni := by rw [hres]
  have hmerge : st.merge =
      { files := [(st.gen + 1, mf), (st.gen + 2, [])], index := ni, gen := st.gen + 2,
        wpos := 0, garbage := 0 } := by
    simp only [KvState.merge]
    rw [hfilter, hres]
    rfl
  have hmgen_ne : st.gen + 1 ≠ st.gen + 2 := by omega
  have hlookup_m :
      alookup ([(st.gen + 1, mf), (st.gen + 2, [])] : Files) (st.gen + 1) = some mf := by
    simp [alookup]
  have hlookup_n :
      alookup ([(st.gen + 1, mf), (st.gen + 2, [])] : Files) (st.gen + 2)
        = some ([] : Bytes) := by
    simp [alookup, hmgen_ne.symm]
  have hvalidNew : ∀ q li, alookup st.index q = some li →
      ∃ pq v, alookup ni q = some ⟨st.gen + 1, pq, li.len⟩
        ∧ ValidEntryV st.files q li v
        ∧ ValidEntryV [(st.gen + 1, mf), (st.gen + 2, [])] q ⟨st.gen + 1, pq, li.len⟩ v := by
    intro q li hli
    obtain ⟨pq, v, hlook, hvold, hbytes⟩ :=
      (mergeEntries_lookupV st.files (st.gen + 1) st.index h.valid [] q).2 li hli
    rw [hni] at hlook
    rw [hmf] at hbytes
    refine ⟨pq, v, hlook, hvold, mf, hlookup_m, hbytes, ?_, ?_⟩
    · obtain ⟨f, _, _, hlen, _⟩ := hvold
      exact hlen
    · obtain ⟨f, _, _, _, hs⟩ := hvold
      exact hs
  have hninodup : (ni.map Prod.fst).Nodup := by
    rw [← hni, mergeEntries_keys]
    exact h.idxNodup
  have hget : ∀ q, st.merge.get q = st.get q := by
    intro q
    rw [hmerge]
    cases hq : alookup st.index q with
    | none =>
      have hn := (mergeEntries_lookupV st.files (st.gen + 1) st.index h.valid [] q).1 hq
      rw [hni] at hn
      rw [get_of_absent _ _ hq, get_of_absent _ _ hn]
    | some li =>
      obtain ⟨pq, v, hlook, hvold, hvnew⟩ := hvalidNew q li hq
      rw [get_of_validV st q li v hq hvold]
      exact get_of_validV _ q _ v hlook hvnew
  refine ⟨?_, hget, ?_, ?_⟩
  · rw [hmerge]
    refine ⟨?_, ?_, ?_, ?_, ?_, ?_, ?_, ?_⟩
    · simp only [List.map_cons, List.map_nil]
      refine List.Pairwise.cons ?_ (List.pairwise_singleton _ _)
      intro b hb
      simp only [List.mem_cons, List.not_mem_nil, or_false] at hb
      omega
    · intro g hg
      simp only [List.map_cons, List.map_nil, List.mem_cons, List.not_mem_nil,
        or_false] at hg
      rcases hg with rfl | rfl <;> simp
    · simp
    · exact ⟨[], hlookup_n, rfl⟩
    · intro p hp
      simp only [List.mem_cons, List.not_mem_nil, or_false] at hp
      rcases hp with rfl | rfl
      · show SegWf mf
        rw [← hmf]
        exact mergeEntries_segWf st.files (st.gen + 1) st.index h.valid [] SegWf.nil
      · exact SegWf.nil
    · exact hninodup
    · intro p hp
      have hlook := alookup_of_mem_nodup ni p.1 p.2 hninodup hp
      have hkey : p.1 ∈ st.index.map Prod.fst := by
        have hmem : p.1 ∈ ni.map Prod.fst := List.mem_map.mpr ⟨p, hp, rfl⟩
        rw [← hni, mergeEntries_keys] at hmem
        exact hmem
      obtain ⟨li, hli⟩ := Option.isSome_iff_exists.mp ((alookup_isSome _ _).mpr hkey)
      obtain ⟨pq, v, hlook2, hvold, hvnew⟩ := hvalidNew p.1 li hli
      have hp2 : p.2 = ⟨st.gen + 1, pq, li.len⟩ := by
        rw [hlook] at hlook2
        exact Option.some.inj hlook2
      exact ⟨v, hp2 ▸ hvnew⟩
    · show buildAll [(st.gen + 1, mf), (st.gen + 2, [])] = .ok (ni, 0)
      have hr := mergeEntries_replay st.files (st.gen + 1) st.index h.valid h.idxNodup
        [] [] 0 (by intro p hp; simp)
      rw [hni] at hr
      simp only [List.length_nil, List.nil_append] at hr
      have hmf_flat : mf = (st.index.map (fun p => readRegion st.files p.2)).flatten := by
        rw [← hmf, mergeEntries_fst, List.nil_append]
      unfold buildAll buildAllAux buildIndex
      rw [hmf_flat, hr]
      simp only []
      unfold buildAllAux buildIndex
      rw [buildLoop_eof _ _ _ _ _ decodeEntry_nil]
      rfl
  · intro p hp
    rw [hmerge] at hp
    have hp' : p ∈ (mergeEntries st.files (st.gen + 1) st.index []).2 := by
      rw [hni]
      exact hp
    exact mergeEntries_gens st.files (st.gen + 1) st.index [] p hp'
  · rw [hmerge]
    show ni.map (fun p => (p.1, p.2.len)) = st.index.map (fun p => (p.1, p.2.len))
    rw [← hni]
    exact mergeEntries_lens st.files (st.gen + 1) st.index []

/-! ## Appending a record to the active segment -/

/-- Appending to a segment file never disturbs the bytes an existing valid
entry points at (invariant I2). -/
theorem validV_appendToFile (files : Files) (gen : Nat) (bs : Bytes) (k : Bytes)
    (li : LogIndex) (v : Bytes) (h : ValidEntryV files k li v) :
    ValidEntryV (appendToFile files gen bs) k li v := by
  obtain ⟨f, hple⟩ := ValidEntryV.pos_len_le files k li v h
  obtain ⟨f', hf', hregion, hlen, hs⟩ := h
  rw [hple.1] at hf'
  obtain rfl : f = f' := Option.some.inj hf'
  by_cases hgen : li.gen = gen
  · refine ⟨f ++ bs, ?_, ?_, hlen, hs⟩
    · rw [hgen, alookup_appendToFile_self, ← hgen, hple.1]
      rfl
    · rw [List.drop_append_eq_append_drop]
      rw [show li.pos - f.length = 0 by omega, List.drop_zero]
      rw [List.take_append_eq_append_take]
      rw [show li.len - (f.drop li.pos).length = 0 by simp [List.length_drop]; omega]
      rw [List.take_zero, List.append_nil, hregion]
  · refine ⟨f, ?_, hregion, hlen, hs⟩
    rw [alookup_appendToFile_ne _ _ _ _ hgen, hple.1]

theorem mem_appendToFile (files : Files) (g : Nat) (bs : Bytes) (p : Nat × Bytes) :
    p ∈ appendToFile files g bs → p ∈ files ∨ ∃ f, (g, f) ∈ files ∧ p = (g, f ++ bs) := by
  induction files with
  | nil => intro h; simp at h
  | cons q t ih =>
    obtain ⟨g', f'⟩ := q
    intro h
    by_cases hg : g = g'
    · subst hg
      simp [appendToFile] at h
      rcases h with h | h
      · exact Or.inr ⟨f', by simp, by simp [h]⟩
      · exact Or.inl (List.mem_cons_of_mem _ h)
    · simp only [appendToFile, if_neg hg, List.mem_cons] at h
      rcases h with h | h
      · exact Or.inl (by simp [h])
      · rcases ih h with h' | ⟨f, hf, hp⟩
        · exact Or.inl (List.mem_cons_of_mem _ h')
        · exact Or.inr ⟨f, List.mem_cons_of_mem _ hf, hp⟩

/-- The effect of replaying one record on the index and garbage counter, as
`build_index` does. -/
def recordStep (gen pos : Nat) (e : LogEntry) (idx : Index) (g : Nat) : Index × Nat :=
  match e with
  | .set k _ =>
    (ainsert idx k ⟨gen, pos, (encodeEntry e).length⟩,
      match alookup idx k with | some p => g + p.len | none => g)
  | .rm k =>
    (aerase idx k, match alookup idx k with | some p => g + p.len | none => g)

theorem buildLoop_single (e : LogEntry) (he : SmallEntry e) (pos : Nat) (idx : Index)
    (g gen : Nat) :
    buildLoop (encodeEntry e) pos idx g gen = .ok (recordStep gen pos e idx g) := by
  have hdec : decodeEntry (encodeEntry e) = .ok (e, (encodeEntry e).length) := by
    have h := decodeEntry_encode e [] he
    rwa [List.append_nil] at h
  cases e with
  | set k v =>
    rw [buildLoop_set _ _ _ _ _ _ _ _ hdec, List.drop_length,
      buildLoop_eof _ _ _ _ _ decodeEntry_nil]
    rfl
  | rm k =>
    rw [buildLoop_rm _ _ _ _ _ _ _ hdec, List.drop_length,
      buildLoop_eof _ _ _ _ _ decodeEntry_nil]
    rfl

/-- Appending one record to a well-formed segment extends its replay by one
`recordStep` at the old end-of-file position. -/
theorem buildIndex_append_record (af : Bytes) (hwf : SegWf af) (e : LogEntry)
    (he : SmallEntry e) (idx0 : Index) (gen : Nat) (idx : Index) (gseg : Nat)
    (hprev : buildIndex af idx0 gen = .ok (idx, gseg)) :
    buildIndex (af ++ encodeEntry e) idx0 gen
      = .ok (recordStep gen af.length e idx gseg) := by
  obtain ⟨es, rfl, hs⟩ := hwf
  unfold buildIndex at hprev ⊢
  rw [buildLoop_of_segWf gen es hs 0 idx0 0] at hprev
  have hpair : replayFold gen es 0 idx0 0 = (idx, gseg) := Except.ok.inj hprev
  rw [buildLoop_flatten gen es hs (encodeEntry e) 0 idx0 0, hpair, Nat.zero_add]
  exact buildLoop_single e he _ idx gseg gen

/-- Appending one record to the active (last) segment extends the whole
directory replay by one `recordStep` at the active segment's end. -/
theorem mem_of_getLast?_eq {α : Type} (l : List α) (a : α) (h : l.getLast? = some a) :
    a ∈ l := by
  have hx : a ∈ l.getLast? := by rw [Option.mem_def]; exact h
  obtain ⟨hne, heq⟩ := List.mem_getLast?_eq_getLast hx
  rw [heq]
  exact List.getLast_mem hne

/-- Appending one record to the active (last) segment extends the whole
directory replay by one `recordStep` at the active segment's end. -/
theorem buildAllAux_append_active (e : LogEntry) (he : SmallEntry e) :
    ∀ (files : Files) (gen : Nat) (af : Bytes) (idx0 : Index) (g0 : Nat)
      (idx : Index) (g : Nat),
      (files.map Prod.fst).Nodup →
      (files.map Prod.fst).getLast? = some gen →
      alookup files gen = some af →
      (∀ p ∈ files, SegWf p.2) →
      buildAllAux files idx0 g0 = .ok (idx, g) →
      buildAllAux (appendToFile files gen (encodeEntry e)) idx0 g0
        = .ok ((recordStep gen af.length e idx g).1, (recordStep gen af.length e idx g).2) := by
  intro files
  induction files with
  | nil =>
    intro gen af idx0 g0 idx g _ hlast _ _ _
    simp at hlast
  | cons q t ih =>
    intro gen af idx0 g0 idx g hnd hlast haf hwf hrun
    obtain ⟨g', f'⟩ := q
    simp only [List.map_cons, List.nodup_cons] at hnd
    by_cases hg : gen = g'
    · -- the active segment is the head, so it is also the last: `t` is empty
      subst hg
      have ht : t = [] := by
        cases t with
        | nil => rfl
        | cons q' t' =>
          exfalso
          simp only [List.map_cons] at hlast
          rw [List.getLast?_cons_cons] at hlast
          have hmem : gen ∈ q'.1 :: t'.map Prod.fst :=
            mem_of_getLast?_eq _ _ hlast
          simp only [List.map_cons] at hnd
          exact hnd.1 hmem
      subst ht
      have h2 : af = f' := by
        simp only [alookup] at haf
        rw [if_true] at haf
        exact (Option.some.inj haf).symm
      subst h2
      have hseg : SegWf af := hwf (gen, af) (by simp)
      simp only [appendToFile]
      rw [if_true]
      unfold buildAllAux at hrun ⊢
      cases hbi : buildIndex af idx0 gen with
      | error err => rw [hbi] at hrun; simp at hrun
      | ok r =>
        obtain ⟨idxSeg, gseg⟩ := r
        rw [hbi] at hrun
        simp only [] at hrun
        unfold buildAllAux at hrun
        obtain ⟨rfl, rfl⟩ : idxSeg = idx ∧ g0 + gseg = g := by
          have h3 := Except.ok.inj hrun
          exact ⟨congrArg Prod.fst h3, congrArg Prod.snd h3⟩
        rw [buildIndex_append_record af hseg e he idx0 gen idxSeg gseg hbi]
        simp only []
        unfold buildAllAux
        cases e with
        | set k v =>
          simp only [recordStep]
          cases alookup idxSeg k <;> simp only [] <;>
            rw [Except.ok.injEq, Prod.mk.injEq] <;> exact ⟨rfl, by omega⟩
        | rm k =>
          simp only [recordStep]
          cases alookup idxSeg k <;> simp only [] <;>
            rw [Except.ok.injEq, Prod.mk.injEq] <;> exact ⟨rfl, by omega⟩
    · -- the active segment is further down the list
      have hlast' : (t.map Prod.fst).getLast? = some gen := by
        cases t with
        | nil =>
          simp only [List.map_cons, List.map_nil, List.getLast?_singleton] at hlast
          exact absurd (Option.some.inj hlast).symm hg
        | cons q' t' =>
          simp only [List.map_cons] at hlast ⊢
          rwa [List.getLast?_cons_cons] at hlast
      have haf' : alookup t gen = some af := by
        simp only [alookup, if_neg hg] at haf
        exact haf
      have hwf' : ∀ p ∈ t, SegWf p.2 := fun p hp => hwf p (List.mem_cons_of_mem _ hp)
      simp only [appendToFile]
      rw [if_neg hg]
      unfold buildAllAux at hrun ⊢
      cases hbi : buildIndex f' idx0 g' with
      | error err => rw [hbi] at hrun; simp at hrun
      | ok r =>
        obtain ⟨idx1, gseg⟩ := r
        rw [hbi] at hrun
        simp only [] at hrun
        simp only []
        exact ih gen af idx1 (g0 + gseg) idx g hnd.2 hlast' haf' hwf' hrun

/-! ## The writer operations preserve the invariant -/

/-- The state after `set`'s append/flush/insert/garbage-update, before any
compaction. -/
def KvState.setPre (st : KvState) (k v : Bytes) : KvState :=
  { files := appendToFile st.files st.gen (encodeEntry (.set k v))
    index := ainsert st.index k ⟨st.gen, st.wpos, (encodeEntry (.set k v)).length⟩
    gen := st.gen
    wpos := st.wpos + (encodeEntry (.set k v)).length
    garbage := match alookup st.index k with
      | some p => st.garbage + p.len
      | none => st.garbage }

/-- `set` is `setPre`, followed by compaction exactly when an entry was
superseded and the garbage counter crossed the threshold. -/
theorem set_eq_setPre (st : KvState) (k v : Bytes) :
    st.set k v =
      if GARBAGE_THRESHOLD < (st.setPre k v).garbage ∧ (alookup st.index k).isSome
      then (st.setPre k v).merge else st.setPre k v := by
  unfold KvState.set KvState.setPre
  cases hp : alookup st.index k with
  | none => simp
  | some p => simp

theorem Pairwise_lt_nodup (l : List Nat) (h : l.Pairwise (· < ·)) : l.Nodup :=
  h.imp Nat.ne_of_lt

theorem set_pre_spec (st : KvState) (h : Inv st) (k v : Bytes)
    (hk : k.length < 2 ^ 64) (hv : v.length < 2 ^ 64) :
    Inv (st.setPre k v)
    ∧ ∀ q, (st.setPre k v).get q = if q = k then .ok (some v) else st.get q := by
  obtain ⟨af, haf, hwpos⟩ := h.active
  have hsmall : SmallEntry (.set k v) := ⟨hk, hv⟩
  have hnewvalid : ValidEntryV (st.setPre k v).files k
      ⟨st.gen, st.wpos, (encodeEntry (.set k v)).length⟩ v := by
    refine ⟨af ++ encodeEntry (.set k v), ?_, ?_, rfl, hsmall⟩
    · show alookup (appendToFile st.files st.gen (encodeEntry (.set k v))) st.gen = _
      rw [alookup_appendToFile_self, haf]
      rfl
    · show ((af ++ encodeEntry (.set k v)).drop st.wpos).take _ = _
      rw [hwpos, List.drop_left, List.take_length]
  have hget : ∀ q, (st.setPre k v).get q = if q = k then .ok (some v) else st.get q := by
    intro q
    by_cases hq : q = k
    · subst hq
      rw [if_pos rfl]
      exact get_of_validV _ q _ v (alookup_ainsert_self _ _ _) hnewvalid
    · rw [if_neg hq]
      have hlq : alookup (st.setPre k v).index q = alookup st.index q :=
        alookup_ainsert_ne _ _ _ _ hq
      cases hql : alookup st.index q with
      | none => rw [get_of_absent _ _ (hlq.trans hql), get_of_absent _ _ hql]
      | some li =>
        obtain ⟨v', hvv⟩ := h.valid (q, li) (alookup_mem _ _ _ hql)
        rw [get_of_validV st q li v' hql hvv]
        exact get_of_validV _ q li v' (hlq.trans hql)
          (validV_appendToFile _ _ _ _ _ _ hvv)
  refine ⟨⟨?_, ?_, ?_, ?_, ?_, ?_, ?_, ?_⟩, hget⟩
  · show ((appendToFile st.files st.gen _).map Prod.fst).Pairwise (· < ·)
    rw [keys_appendToFile]
    exact h.keysAsc
  · show ∀ g ∈ (appendToFile st.files st.gen _).map Prod.fst, g ≤ st.gen
    rw [keys_appendToFile]
    exact h.gensLe
  · show ((appendToFile st.files st.gen _).map Prod.fst).getLast? = some st.gen
    rw [keys_appendToFile]
    exact h.lastGen
  · refine ⟨af ++ encodeEntry (.set k v), ?_, ?_⟩
    · show alookup (appendToFile st.files st.gen _) st.gen = _
      rw [alookup_appendToFile_self, haf]
      rfl
    · show st.wpos + (encodeEntry (.set k v)).length = _
      rw [hwpos, List.length_append]
  · intro p hp
    rcases mem_appendToFile _ _ _ _ hp with hold | ⟨f, hfmem, rfl⟩
    · exact h.segsWf p hold
    · exact SegWf.append_entry _ _ (h.segsWf (st.gen, f) hfmem) hsmall
  · exact nodup_keys_ainsert _ _ _ h.idxNodup
  · intro p hp
    rcases mem_ainsert _ _ _ _ hp with rfl | hold
    · exact ⟨v, hnewvalid⟩
    · obtain ⟨v', hvv⟩ := h.valid p hold
      exact ⟨v', validV_appendToFile _ _ _ _ _ _ hvv⟩
  · show buildAll (appendToFile st.files st.gen _) = _
    unfold buildAll
    rw [buildAllAux_append_active (.set k v) hsmall st.files st.gen af [] 0
      st.index st.garbage (Pairwise_lt_nodup _ h.keysAsc) h.lastGen haf h.segsWf h.replay]
    simp only [recordStep, hwpos, KvState.setPre]

/-- The state after `remove`'s append/flush/erase/garbage-update, before any
compaction; `plen` is the superseded entry's length. -/
def KvState.removePre (st : KvState) (k : Bytes) (plen : Nat) : KvState :=
  { files := appendToFile st.files st.gen (encodeEntry (.rm k))
    index := aerase st.index k
    gen := st.gen
    wpos := st.wpos + (encodeEntry (.rm k)).length
    garbage := st.garbage + plen }

theorem remove_eq_none (st : KvState) (k : Bytes) (hp : alookup st.index k = none) :
    st.remove k = .error .keyNotFound := by
  unfold KvState.remove
  rw [hp]

theorem remove_eq_some (st : KvState) (k : Bytes) (p : LogIndex)
    (hp : alookup st.index k = some p) :
    st.remove k =
      if GARBAGE_THRESHOLD < st.garbage + p.len
      then .ok (st.removePre k p.len).merge else .ok (st.removePre k p.len) := by
  unfold KvState.remove KvState.removePre
  rw [hp]

theorem remove_pre_spec (st : KvState) (h : Inv st) (k : Bytes)
    (hk : k.length < 2 ^ 64) (p : LogIndex) (hp : alookup st.index k = some p) :
    Inv (st.removePre k p.len)
    ∧ ∀ q, (st.removePre k p.len).get q = if q = k then .ok none else st.get q := by
  obtain ⟨af, haf, hwpos⟩ := h.active
  have hsmall : SmallEntry (.rm k) := hk
  have hget : ∀ q, (st.removePre k p.len).get q = if q = k then .ok none else st.get q := by
    intro q
    by_cases hq : q = k
    · subst hq
      rw [if_pos rfl]
      exact get_of_absent _ _ (alookup_aerase_self _ _ h.idxNodup)
    · rw [if_neg hq]
      have hlq : alookup (st.removePre k p.len).index q = alookup st.index q :=
        alookup_aerase_ne _ _ _ hq
      cases hql : alookup st.index q with
      | none => rw [get_of_absent _ _ (hlq.trans hql), get_of_absent _ _ hql]
      | some li =>
        obtain ⟨v', hvv⟩ := h.valid (q, li) (alookup_mem _ _ _ hql)
        rw [get_of_validV st q li v' hql hvv]
        exact get_of_validV _ q li v' (hlq.trans hql)
          (validV_appendToFile _ _ _ _ _ _ hvv)
  refine ⟨⟨?_, ?_, ?_, ?_, ?_, ?_, ?_, ?_⟩, hget⟩
  · show ((appendToFile st.files st.gen _).map Prod.fst).Pairwise (· < ·)
    rw [keys_appendToFile]
    exact h.keysAsc
  · show ∀ g ∈ (appendToFile st.files st.gen _).map Prod.fst, g ≤ st.gen
    rw [keys_appendToFile]
    exact h.gensLe
  · show ((appendToFile st.files st.gen _).map Prod.fst).getLast? = some st.gen
    rw [keys_appendToFile]
    exact h.lastGen
  · refine ⟨af ++ encodeEntry (.rm k), ?_, ?_⟩
    · show alookup (appendToFile st.files st.gen _) st.gen = _
      rw [alookup_appendToFile_self, haf]
      rfl
    · show st.wpos + (encodeEntry (.rm k)).length = _
      rw [hwpos, List.length_append]
  · intro q hq
    rcases mem_appendToFile _ _ _ _ hq with hold | ⟨f, hfmem, rfl⟩
    · exact h.segsWf q hold
    · exact SegWf.append_entry _ _ (h.segsWf (st.gen, f) hfmem) hsmall
  · exact nodup_keys_aerase _ _ h.idxNodup
  · intro q hq
    obtain ⟨v', hvv⟩ := h.valid q (mem_aerase _ _ _ hq)
    exact ⟨v', validV_appendToFile _ _ _ _ _ _ hvv⟩
  · show buildAll (appendToFile st.files st.gen _) = _
    unfold buildAll
    rw [buildAllAux_append_active (.rm k) hsmall st.files st.gen af [] 0
      st.index st.garbage (Pairwise_lt_nodup _ h.keysAsc) h.lastGen haf h.segsWf h.replay]
    simp only [recordStep, hp, KvState.removePre]

/-- Full specification of one `set` on an invariant state. -/
theorem set_spec (st : KvState) (h : Inv st) (k v : Bytes)
    (hk : k.length < 2 ^ 64) (hv : v.length < 2 ^ 64) :
    Inv (st.set k v)
    ∧ ∀ q, (st.set k v).get q = if q = k then .ok (some v) else st.get q := by
  obtain ⟨hInv1, hget1⟩ := set_pre_spec st h k v hk hv
  rw [set_eq_setPre]
  by_cases hc : GARBAGE_THRESHOLD < (st.setPre k v).garbage ∧ (alookup st.index k).isSome
  · rw [if_pos hc]
    obtain ⟨hInvM, hgetM, _, _⟩ := merge_spec _ hInv1
    exact ⟨hInvM, fun q => (hgetM q).trans (hget1 q)⟩
  · rw [if_neg hc]
    exact ⟨hInv1, hget1⟩

/-- Full specification of one `remove` on an invariant state. -/
theorem remove_spec (st : KvState) (h : Inv st) (k : Bytes) (hk : k.length < 2 ^ 64) :
    (alookup st.index k = none → st.remove k = .error .keyNotFound)
    ∧ ∀ p, alookup st.index k = some p →
        ∃ st', st.remove k = .ok st' ∧ Inv st'
          ∧ ∀ q, st'.get q = if q = k then .ok none else st.get q := by
  constructor
  · intro hnone
    exact remove_eq_none st k hnone
  · intro p hp
    obtain ⟨hInv1, hget1⟩ := remove_pre_spec st h k hk p hp
    rw [remove_eq_some st k p hp]
    by_cases hc : GARBAGE_THRESHOLD < st.garbage + p.len
    · rw [if_pos hc]
      obtain ⟨hInvM, hgetM, _, _⟩ := merge_spec _ hInv1
      exact ⟨_, rfl, hInvM, fun q => (hgetM q).trans (hget1 q)⟩
    · rw [if_neg hc]
      exact ⟨_, rfl, hInv1, hget1⟩

/-- The invariant holds for a freshly opened store on an empty directory. -/
theorem Inv_openFresh : Inv openFresh := by
  refine ⟨?_, ?_, ?_, ?_, ?_, ?_, ?_, ?_⟩
  · simp [openFresh]
  · simp [openFresh]
  · simp [openFresh]
  · exact ⟨[], by simp [openFresh, alookup], rfl⟩
  · intro p hp
    simp only [openFresh, List.mem_cons, List.not_mem_nil, or_false] at hp
    rw [hp]
    exact SegWf.nil
  · simp [openFresh]
  · intro p hp
    simp [openFresh] at hp
  · show buildAll [(0, [])] = .ok ([], 0)
    unfold buildAll buildAllAux buildIndex
    rw [buildLoop_eof _ _ _ _ _ decodeEntry_nil]
    rfl

/-! ## Sequences of operations -/

/-- Main induction: running any operation sequence from an invariant state
whose observable contents are `m` preserves the invariant and produces the
declarative fold of the operations over `m`. -/
theorem applyOps_spec (ops : List Op) (hs : ∀ op ∈ ops, SmallOp op) :
    ∀ (st : KvState) (m : Bytes → Option Bytes), Inv st →
      (∀ q, st.get q = .ok (m q)) →
      Inv (applyOps ops st)
        ∧ ∀ q, (applyOps ops st).get q = .ok ((ops.foldl specApply m) q) := by
  induction ops with
  | nil =>
    intro st m hInv hget
    exact ⟨hInv, fun q => by simpa [applyOps] using hget q⟩
  | cons op rest ih =>
    intro st m hInv hget
    have hsop : SmallOp op := hs op (by simp)
    have hsr : ∀ x ∈ rest, SmallOp x := fun x hx => hs x (by simp [hx])
    have hfold : applyOps (op :: rest) st = applyOps rest (applyOp st op) := rfl
    have hspec : (op :: rest).foldl specApply m = rest.foldl specApply (specApply m op) := rfl
    rw [hfold, hspec]
    cases op with
    | set k v =>
      obtain ⟨hk, hv⟩ := hsop
      obtain ⟨hInv', hget'⟩ := set_spec st hInv k v hk hv
      have hget'' : ∀ q, (st.set k v).get q = .ok (specApply m (.set k v) q) := by
        intro q
        rw [hget' q]
        by_cases hq : q = k
        · simp [hq, specApply]
        · simp [hq, specApply, hget q]
      exact ih hsr (st.set k v) _ hInv' hget''
    | rm k =>
      have hk : k.length < 2 ^ 64 := hsop
      obtain ⟨hknf, hsome⟩ := remove_spec st hInv k hk
      cases hkl : alookup st.index k with
      | none =>
        have happ : applyOp st (.rm k) = st := by
          simp only [applyOp]
          rw [hknf hkl]
        rw [happ]
        have hmk : m k = none := by
          have h1 := (get_of_absent st k hkl).symm.trans (hget k)
          exact (Except.ok.inj h1).symm
        have hget'' : ∀ q, st.get q = .ok (specApply m (.rm k) q) := by
          intro q
          by_cases hq : q = k
          · subst hq
            simp [specApply, hget q, hmk]
          · simp [hq, specApply, hget q]
        exact ih hsr st _ hInv hget''
      | some p =>
        obtain ⟨st', hrem, hInv', hget'⟩ := hsome p hkl
        have happ : applyOp st (.rm k) = st' := by
          simp only [applyOp]
          rw [hrem]
        rw [happ]
        have hget'' : ∀ q, st'.get q = .ok (specApply m (.rm k) q) := by
          intro q
          rw [hget' q]
          by_cases hq : q = k
          · simp [hq, specApply]
          · simp [hq, specApply, hget q]
        exact ih hsr st' _ hInv' hget''

theorem openFresh_get (q : Bytes) : openFresh.get q = .ok none :=
  get_of_absent _ _ rfl

/-- Invariance and result characterization for runs from a fresh store. -/
theorem run_spec (ops : List Op) (hs : ∀ op ∈ ops, SmallOp op) :
    Inv (applyOps ops openFresh)
      ∧ ∀ q, (applyOps ops openFresh).get q = .ok (specRun ops q) :=
  applyOps_spec ops hs openFresh (fun _ => none) Inv_openFresh openFresh_get

/-! ## Close and reopen -/

theorem validV_append_file (files ext : Files) (k : Bytes) (li : LogIndex) (v : Bytes)
    (h : ValidEntryV files k li v) : ValidEntryV (files ++ ext) k li v := by
  obtain ⟨f, hf, hregion, hlen, hs⟩ := h
  refine ⟨f, ?_, hregion, hlen, hs⟩
  rw [alookup_append_left]
  · exact hf
  · exact (alookup_isSome files li.gen).mp (by simp [hf])

/-- Reopening the directory of an invariant state succeeds and reproduces
every `get` result: replay rebuilds exactly the live index. -/
theorem reopen_get (st : KvState) (h : Inv st) :
    ∃ st2, openStore st.files = .ok st2 ∧ st2.index = st.index
      ∧ st2.garbage = st.garbage ∧ ∀ q, st2.get q = st.get q := by
  refine ⟨{ files := st.files ++ [(st.gen + 1, [])], index := st.index, gen := st.gen + 1,
            wpos := 0, garbage := st.garbage }, ?_, rfl, rfl, ?_⟩
  · unfold openStore
    rw [h.replay, h.lastGen]
  · intro q
    cases hql : alookup st.index q with
    | none =>
      rw [get_of_absent st q hql]
      exact get_of_absent _ q hql
    | some li =>
      obtain ⟨v', hvv⟩ := h.valid (q, li) (alookup_mem _ _ _ hql)
      rw [get_of_validV st q li v' hql hvv]
      exact get_of_validV _ q li v' hql (validV_append_file _ _ _ _ _ hvv)

/-! ## Truncated and corrupted trailing data -/

/-- A trailing blob that decodes to `UnexpectedEof` contributes nothing: the
scan of the segment ends exactly where it would have ended without it. -/
theorem buildIndex_truncatedTail (af : Bytes) (hwf : SegWf af) (pb : Bytes)
    (hpb : decodeEntry pb = .error .eof) (idx0 : Index) (gen : Nat) :
    buildIndex (af ++ pb) idx0 gen = buildIndex af idx0 gen := by
  obtain ⟨es, rfl, hs⟩ := hwf
  unfold buildIndex
  rw [buildLoop_flatten gen es hs pb, buildLoop_of_segWf gen es hs]
  exact buildLoop_eof _ _ _ _ _ hpb

/-- A trailing blob whose decoding fails with anything but `UnexpectedEof`
makes the segment scan fail. -/
theorem buildIndex_invalid (af : Bytes) (hwf : SegWf af) (bad : Bytes)
    (hbad : decodeEntry bad = .error .invalid) (idx0 : Index) (gen : Nat) :
    buildIndex (af ++ bad) idx0 gen = .error .invalid := by
  obtain ⟨es, rfl, hs⟩ := hwf
  unfold buildIndex
  rw [buildLoop_flatten gen es hs bad]
  exact buildLoop_invalid _ _ _ _ _ hbad

/-- Replaying a directory of well-formed segments never fails. -/
theorem buildAllAux_wf_ok (files : Files) (hwf : ∀ p ∈ files, SegWf p.2) :
    ∀ (idx0 : Index) (g0 : Nat), ∃ idx g, buildAllAux files idx0 g0 = .ok (idx, g) := by
  induction files with
  | nil => intro idx0 g0; exact ⟨idx0, g0, rfl⟩
  | cons q t ih =>
    intro idx0 g0
    obtain ⟨g', f'⟩ := q
    obtain ⟨es, rfl, hs⟩ := hwf (g', f') (by simp)
    have hwf' : ∀ p ∈ t, SegWf p.2 := fun p hp => hwf p (List.mem_cons_of_mem _ hp)
    unfold buildAllAux buildIndex
    rw [buildLoop_of_segWf g' es hs]
    exact ih hwf' _ _

/-- Appending an eof-decoding blob to the active (last) segment does not
change the directory replay. -/
theorem buildAllAux_append_truncated (pb : Bytes) (hpb : decodeEntry pb = .error .eof) :
    ∀ (files : Files) (gen : Nat) (idx0 : Index) (g0 : Nat),
      (files.map Prod.fst).Nodup →
      (files.map Prod.fst).getLast? = some gen →
      (∀ p ∈ files, SegWf p.2) →
      buildAllAux (appendToFile files gen pb) idx0 g0 = buildAllAux files idx0 g0 := by
  intro files
  induction files with
  | nil => intro gen idx0 g0 _ hlast _; simp at hlast
  | cons q t ih =>
    intro gen idx0 g0 hnd hlast hwf
    obtain ⟨g', f'⟩ := q
    simp only [List.map_cons, List.nodup_cons] at hnd
    by_cases hg : gen = g'
    · subst hg
      have ht : t = [] := by
        cases t with
        | nil => rfl
        | cons q' t' =>
          exfalso
          simp only [List.map_cons] at hlast
          rw [List.getLast?_cons_cons] at hlast
          have hmem : gen ∈ q'.1 :: t'.map Prod.fst := mem_of_getLast?_eq _ _ hlast
          simp only [List.map_cons] at hnd
          exact hnd.1 hmem
      subst ht
      simp only [appendToFile]
      rw [if_true]
      unfold buildAllAux
      rw [buildIndex_truncatedTail f' (hwf (gen, f') (by simp)) pb hpb idx0 gen]
    · have hlast' : (t.map Prod.fst).getLast? = some gen := by
        cases t with
        | nil =>
          simp only [List.map_cons, List.map_nil, List.getLast?_singleton] at hlast
          exact absurd (Option.some.inj hlast).symm hg
        | cons q' t' =>
          simp only [List.map_cons] at hlast ⊢
          rwa [List.getLast?_cons_cons] at hlast
      have hwf' : ∀ p ∈ t, SegWf p.2 := fun p hp => hwf p (List.mem_cons_of_mem _ hp)
      simp only [appendToFile]
      rw [if_neg hg]
      unfold buildAllAux
      cases hbi : buildIndex f' idx0 g' with
      | error err => rfl
      | ok r =>
        obtain ⟨idx1, gseg⟩ := r
        simp only []
        exact ih gen idx1 (g0 + gseg) hnd.2 hlast' hwf'

/-- Appending a blob whose decoding fails with a non-eof error to the active
segment makes the whole replay fail. -/
theorem buildAllAux_append_invalid (bad : Bytes) (hbad : decodeEntry bad = .error .invalid) :
    ∀ (files : Files) (gen : Nat) (idx0 : Index) (g0 : Nat),
      (files.map Prod.fst).Nodup →
      (files.map Prod.fst).getLast? = some gen →
      (∀ p ∈ files, SegWf p.2) →
      buildAllAux (appendToFile files gen bad) idx0 g0 = .error .invalid := by
  intro files
  induction files with
  | nil => intro gen idx0 g0 _ hlast _; simp at hlast
  | cons q t ih =>
    intro gen idx0 g0 hnd hlast hwf
    obtain ⟨g', f'⟩ := q
    simp only [List.map_cons, List.nodup_cons] at hnd
    by_cases hg : gen = g'
    · subst hg
      have ht : t = [] := by
        cases t with
        | nil => rfl
        | cons q' t' =>
          exfalso
          simp only [List.map_cons] at hlast
          rw [List.getLast?_cons_cons] at hlast
          have hmem : gen ∈ q'.1 :: t'.map Prod.fst := mem_of_getLast?_eq _ _ hlast
          simp only [List.map_cons] at hnd
          exact hnd.1 hmem
      subst ht
      simp only [appendToFile]
      rw [if_true]
      unfold buildAllAux
      rw [buildIndex_invalid f' (hwf (gen, f') (by simp)) bad hbad idx0 gen]
    · have hlast' : (t.map Prod.fst).getLast? = some gen := by
        cases t with
        | nil =>
          simp only [List.map_cons, List.map_nil, List.getLast?_singleton] at hlast
          exact absurd (Option.some.inj hlast).symm hg
        | cons q' t' =>
          simp only [List.map_cons] at hlast ⊢
          rwa [List.getLast?_cons_cons] at hlast
      have hwf' : ∀ p ∈ t, SegWf p.2 := fun p hp => hwf p (List.mem_cons_of_mem _ hp)
      simp only [appendToFile]
      rw [if_neg hg]
      unfold buildAllAux
      cases hbi : buildIndex f' idx0 g' with
      | error err =>
        obtain ⟨es, hf'eq, hs⟩ := hwf (g', f') (by simp)
        have hf2 : f' = (es.map encodeEntry).flatten := hf'eq
        rw [hf2] at hbi
        unfold buildIndex at hbi
        rw [buildLoop_of_segWf g' es hs] at hbi
        cases hbi
      | ok r =>
        obtain ⟨idx1, gseg⟩ := r
        simp only []
        exact ih gen idx1 (g0 + gseg) hnd.2 hlast' hwf'

/-! ## The client CLI (`kvs-client`)

Modelled from `src/pna/kvs/src/bin/kvs-client.rs` and the client half of
`src/pna/kvs/src/network.rs`.  A server reply is the decoded
`KvsResponse.response_result` field; the network transport itself is not
modelled.  The client binary's local error type displays as
`"Key-value store error {inner}"`; the inner `kvs::Error` display is modelled
from `error.rs` (`"{message} ({kind})"` for an error with a payload). -/

inductive ResponseResult
  | errorMessage (msg : String)
  | getCommandValue (value : String)
  deriving DecidableEq, Repr

/-- The decoded `KvsResponse`: `None` means an empty success reply (used for
an absent key on `get`). -/
abbrev KvsResponse := Option ResponseResult

inductive ClientErr
  | serverError (msg : String)
  | invalidKvsResponse
  deriving DecidableEq, Repr

/-- `KvsClient::get_req`, applied to the decoded reply. -/
def get_req (res : KvsResponse) : Except ClientErr (Option String) :=
  match res with
  | some (.errorMessage m) => .error (.serverError m)
  | some (.getCommandValue v) => .ok (some v)
  | none => .ok none

/-- `KvsClient::remove_req`, applied to the decoded reply. -/
def remove_req (res : KvsResponse) : Except ClientErr Unit :=
  match res with
  | some (.errorMessage m) => .error (.serverError m)
  | some (.getCommandValue _) => .error .invalidKvsResponse
  | none => .ok ()

/-- Display of the inner `kvs::Error` (`error.rs`): a custom error prints
`"{message} ({kind.as_str()})"`. -/
def kvsErrorDisplay : ClientErr → String
  | .serverError m => m ++ " (Remote server error)"
  | .invalidKvsResponse => "Received an invalid network message"

/-- `main` + `run` of the client binary for `get KEY`: on success print the
value, print the `Key not found` sentinel when the reply is empty, exit 0;
on error print the binary's error display and exit 1. -/
def clientRunGet (res : KvsResponse) : String × Nat :=
  match get_req res with
  | .ok (some v) => (v, 0)
  | .ok none => ("Key not found", 0)
  | .error e => ("Key-value store error " ++ kvsErrorDisplay e, 1)

/-- `main` + `run` of the client binary for `rm KEY`: nothing is printed on
success; on error the binary's error display is printed and the process exits
with code 1. -/
def clientRunRm (res : KvsResponse) : Option String × Nat :=
  match remove_req res with
  | .ok _ => (none, 0)
  | .error e => (some ("Key-value store error " ++ kvsErrorDisplay e), 1)

/-! ## Claims -/

/-- C1: Sequential semantics of the engine facade.  For every finite sequence
of `set`/`remove` operations applied to a freshly opened store, `get k`
returns `Some v` exactly when the most recent `set k v` was not followed by a
`remove k` or a later `set k v'`, and `None` otherwise (a `remove` of an
absent key fails and changes nothing).  Key/value lengths are bounded by
`2^64` as Rust's `usize` guarantees. -/
theorem C1_sequential_semantics (ops : List Op) (hs : ∀ op ∈ ops, SmallOp op)
    (k : Bytes) : (applyOps ops openFresh).get k = .ok (specRun ops k) :=
  (run_spec ops hs).2 k

theorem C1_witness :
    (∀ op ∈ ([.set [1] [10], .set [2] [20], .rm [1], .set [2] [30]] : List Op), SmallOp op)
    ∧ (applyOps [.set [1] [10], .set [2] [20], .rm [1], .set [2] [30]] openFresh).get [2]
        = .ok (specRun [.set [1] [10], .set [2] [20], .rm [1], .set [2] [30]] [2]) :=
  ⟨by decide, C1_sequential_semantics _ (by decide) [2]⟩

/-- C2: Recovery equivalence.  Closing a store reached by any operation
sequence and reopening its directory succeeds; replay rebuilds exactly the
live index and garbage counter, so every `get` returns the same result as
before the close. -/
theorem C2_recovery_equivalence (ops : List Op) (hs : ∀ op ∈ ops, SmallOp op) :
    ∃ st2, openStore (applyOps ops openFresh).files = .ok st2
      ∧ st2.index = (applyOps ops openFresh).index
      ∧ st2.garbage = (applyOps ops openFresh).garbage
      ∧ ∀ k, st2.get k = (applyOps ops openFresh).get k :=
  reopen_get _ (run_spec ops hs).1

theorem C2_witness :
    ∃ st2, openStore (applyOps [.set [1] [10], .rm [1], .set [2] [20]] openFresh).files
        = .ok st2
      ∧ st2.index = (applyOps [.set [1] [10], .rm [1], .set [2] [20]] openFresh).index
      ∧ st2.garbage = (applyOps [.set [1] [10], .rm [1], .set [2] [20]] openFresh).garbage
      ∧ ∀ k, st2.get k = (applyOps [.set [1] [10], .rm [1], .set [2] [20]] openFresh).get k :=
  C2_recovery_equivalence _ (by decide)

/-- C3: Compaction is observably invisible and leaves no stale references.
On any state satisfying the reachable-state invariant, after `merge` every
index entry carries the merge generation `gen + 1`, every entry's generation
references a file that exists, every entry's length is unchanged, and every
`get` returns exactly what it returned before the merge. -/
theorem C3_compaction_invisible (st : KvState) (h : Inv st) :
    (∀ p ∈ st.merge.index, p.2.gen = st.gen + 1)
    ∧ (∀ p ∈ st.merge.index, (alookup st.merge.files p.2.gen).isSome)
    ∧ st.merge.index.map (fun p => (p.1, p.2.len)) = st.index.map (fun p => (p.1, p.2.len))
    ∧ ∀ q, st.merge.get q = st.get q := by
  obtain ⟨hInvM, hget, hgens, hlens⟩ := merge_spec st h
  refine ⟨hgens, ?_, hlens, hget⟩
  intro p hp
  obtain ⟨v, f, hf, -⟩ := hInvM.valid p hp
  simp [hf]

theorem C3_witness :
    (∀ p ∈ (applyOps [.set [1] [10], .set [1] [20]] openFresh).merge.index,
        p.2.gen = (applyOps [.set [1] [10], .set [1] [20]] openFresh).gen + 1)
    ∧ (∀ p ∈ (applyOps [.set [1] [10], .set [1] [20]] openFresh).merge.index,
        (alookup (applyOps [.set [1] [10], .set [1] [20]] openFresh).merge.files
          p.2.gen).isSome)
    ∧ (applyOps [.set [1] [10], .set [1] [20]] openFresh).merge.index.map
          (fun p => (p.1, p.2.len))
        = (applyOps [.set [1] [10], .set [1] [20]] openFresh).index.map
          (fun p => (p.1, p.2.len))
    ∧ ∀ q, (applyOps [.set [1] [10], .set [1] [20]] openFresh).merge.get q
        = (applyOps [.set [1] [10], .set [1] [20]] openFresh).get q :=
  C3_compaction_invisible _ (run_spec [.set [1] [10], .set [1] [20]] (by decide)).1

/-- C4: `remove` of an absent key is a rejected no-op: it returns
`KeyNotFound` and the state — log files, writer position, index, garbage —
is exactly the one before the call.  For a present key (below the compaction
threshold), `remove` appends a `Rm k` tombstone, erases the index entry, and
adds the superseded entry's length to the garbage counter. -/
theorem C4_remove_absent_no_op (st : KvState) (k : Bytes) :
    (alookup st.index k = none → st.removeFallible k none = (some .keyNotFound, st))
    ∧ (∀ p, alookup st.index k = some p → st.garbage + p.len ≤ GARBAGE_THRESHOLD →
        (st.removeFallible k none).1 = none
        ∧ (st.removeFallible k none).2.files
            = appendToFile st.files st.gen (encodeEntry (.rm k))
        ∧ (st.removeFallible k none).2.wpos = st.wpos + (encodeEntry (.rm k)).length
        ∧ (st.removeFallible k none).2.index = aerase st.index k
        ∧ (st.removeFallible k none).2.garbage = st.garbage + p.len) := by
  constructor
  · intro hn
    rw [removeFallible_none, remove_eq_none st k hn]
  · intro p hp hle
    have h1 : st.remove k = .ok (st.removePre k p.len) := by
      rw [remove_eq_some st k p hp, if_neg (by omega)]
    have h2 : st.removeFallible k none = (none, st.removePre k p.len) := by
      rw [removeFallible_none, h1]
    rw [h2]
    exact ⟨rfl, rfl, rfl, rfl, rfl⟩

theorem C4_witness :
    alookup (applyOps [.set [1] [10]] openFresh).index [2] = none
    ∧ (applyOps [.set [1] [10]] openFresh).removeFallible [2] none
        = (some .keyNotFound, applyOps [.set [1] [10]] openFresh)
    ∧ alookup (applyOps [.set [1] [10]] openFresh).index [1]
        = some ⟨0, 0, 22⟩
    ∧ (applyOps [.set [1] [10]] openFresh).garbage + 22 ≤ GARBAGE_THRESHOLD
    ∧ ((applyOps [.set [1] [10]] openFresh).removeFallible [1] none).1 = none
    ∧ ((applyOps [.set [1] [10]] openFresh).removeFallible [1] none).2.index
        = aerase (applyOps [.set [1] [10]] openFresh).index [1]
    ∧ ((applyOps [.set [1] [10]] openFresh).removeFallible [1] none).2.garbage
        = (applyOps [.set [1] [10]] openFresh).garbage + 22 := by
  have h1 := (C4_remove_absent_no_op (applyOps [.set [1] [10]] openFresh) [2]).1 (by decide)
  have h2 := (C4_remove_absent_no_op (applyOps [.set [1] [10]] openFresh) [1]).2
    ⟨0, 0, 22⟩ (by decide) (by decide)
  exact ⟨by decide, h1, by decide, by decide, h2.1, h2.2.2.2.1, h2.2.2.2.2⟩

theorem set_eq_some_cross (st : KvState) (k v : Bytes) (p : LogIndex)
    (hp : alookup st.index k = some p) (hc : GARBAGE_THRESHOLD < st.garbage + p.len) :
    st.set k v = (st.setPre k v).merge := by
  have hg2 : (st.setPre k v).garbage = st.garbage + p.len := by
    simp only [KvState.setPre]
    rw [hp]
  rw [set_eq_setPre, if_pos ⟨by rw [hg2]; exact hc, by simp [hp]⟩]

theorem set_eq_some_nocross (st : KvState) (k v : Bytes) (p : LogIndex)
    (hp : alookup st.index k = some p) (hc : ¬ GARBAGE_THRESHOLD < st.garbage + p.len) :
    st.set k v = st.setPre k v := by
  have hg2 : (st.setPre k v).garbage = st.garbage + p.len := by
    simp only [KvState.setPre]
    rw [hp]
  rw [set_eq_setPre, if_neg (fun hcon => hc (hg2 ▸ hcon.1))]

theorem set_eq_absent (st : KvState) (k v : Bytes) (hp : alookup st.index k = none) :
    st.set k v = st.setPre k v := by
  rw [set_eq_setPre, if_neg (by simp [hp])]

/-- C5: Compaction trigger.  Starting from any state whose garbage counter is
at or below the 4 MiB threshold: a `set` of an absent key never changes the
garbage counter and never compacts; a superseding `set` adds the superseded
entry's length to the counter, and compaction runs inside the call exactly
when the threshold is then exceeded (observable as the generation advancing
by two and the counter resetting to 0); after any `set` the counter is at or
below the threshold. -/
theorem C5_compaction_trigger (st : KvState) (k v : Bytes)
    (hg : st.garbage ≤ GARBAGE_THRESHOLD) :
    (alookup st.index k = none →
        (st.set k v).garbage = st.garbage ∧ (st.set k v).gen = st.gen)
    ∧ (∀ p, alookup st.index k = some p →
        (GARBAGE_THRESHOLD < st.garbage + p.len →
          (st.set k v).garbage = 0 ∧ (st.set k v).gen = st.gen + 2)
        ∧ (st.garbage + p.len ≤ GARBAGE_THRESHOLD →
          (st.set k v).garbage = st.garbage + p.len ∧ (st.set k v).gen = st.gen))
    ∧ (st.set k v).garbage ≤ GARBAGE_THRESHOLD := by
  cases hp : alookup st.index k with
  | none =>
    have hset : st.set k v = st.setPre k v := set_eq_absent st k v hp
    have hgar : (st.set k v).garbage = st.garbage := by
      rw [hset]
      simp only [KvState.setPre]
      rw [hp]
    have hgen : (st.set k v).gen = st.gen := by
      rw [hset]
      rfl
    refine ⟨fun _ => ⟨hgar, hgen⟩, ?_, by rw [hgar]; exact hg⟩
    intro p hp'
    cases hp'
  | some p =>
    have hg2 : (st.setPre k v).garbage = st.garbage + p.len := by
      simp only [KvState.setPre]
      rw [hp]
    by_cases hc : GARBAGE_THRESHOLD < st.garbage + p.len
    · have hset : st.set k v = (st.setPre k v).merge := set_eq_some_cross st k v p hp hc
      have hgar : (st.set k v).garbage = 0 := by rw [hset]; rfl
      have hgen : (st.set k v).gen = st.gen + 2 := by rw [hset]; rfl
      refine ⟨fun hn => by simp at hn, ?_, by rw [hgar]; exact Nat.zero_le _⟩
      intro p' hp'
      obtain rfl : p' = p := (Option.some.inj hp').symm
      exact ⟨fun _ => ⟨hgar, hgen⟩, fun hle => absurd hc (by omega)⟩
    · have hset : st.set k v = st.setPre k v := set_eq_some_nocross st k v p hp hc
      have hgar : (st.set k v).garbage = st.garbage + p.len := by rw [hset, hg2]
      have hgen : (st.set k v).gen = st.gen := by
        rw [hset]
        rfl
      refine ⟨fun hn => by simp at hn, ?_, by rw [hgar]; omega⟩
      intro p' hp'
      obtain rfl : p' = p := (Option.some.inj hp').symm
      exact ⟨fun hcross => absurd hcross hc, fun _ => ⟨hgar, hgen⟩⟩

/-- A reachable-shaped state sitting exactly at the garbage threshold, used
to exercise the compaction branch. -/
def c5State : KvState :=
  { files := [(0, encodeEntry (.set [1] [10]))]
    index := [([1], ⟨0, 0, 22⟩)]
    gen := 0
    wpos := 22
    garbage := GARBAGE_THRESHOLD }

theorem C5_witness :
    c5State.garbage ≤ GARBAGE_THRESHOLD
    ∧ ((alookup c5State.index [1] = none →
          (c5State.set [1] [9]).garbage = c5State.garbage
            ∧ (c5State.set [1] [9]).gen = c5State.gen)
      ∧ (∀ p, alookup c5State.index [1] = some p →
          (GARBAGE_THRESHOLD < c5State.garbage + p.len →
            (c5State.set [1] [9]).garbage = 0
              ∧ (c5State.set [1] [9]).gen = c5State.gen + 2)
          ∧ (c5State.garbage + p.len ≤ GARBAGE_THRESHOLD →
            (c5State.set [1] [9]).garbage = c5State.garbage + p.len
              ∧ (c5State.set [1] [9]).gen = c5State.gen))
      ∧ (c5State.set [1] [9]).garbage ≤ GARBAGE_THRESHOLD) :=
  ⟨by decide, C5_compaction_trigger c5State [1] [9] (by decide)⟩

instance {ε α : Type} [DecidableEq ε] [DecidableEq α] : DecidableEq (Except ε α)
  | .error a, .error b =>
    if h : a = b then .isTrue (h ▸ rfl) else .isFalse (fun hc => h (by cases hc; rfl))
  | .error _, .ok _ => .isFalse (fun hc => by cases hc)
  | .ok _, .error _ => .isFalse (fun hc => by cases hc)
  | .ok a, .ok b =>
    if h : a = b then .isTrue (h ▸ rfl) else .isFalse (fun hc => h (by cases hc; rfl))

/-- C6: Truncated-log tolerance.  For a directory of well-formed segments:
appending a strict prefix of an encoded record (a partially written trailing
record) to the active (last) segment leaves the replayed index and garbage
untouched and `open` still succeeds; while appending bytes whose decoding
fails with anything other than unexpected end-of-stream makes `open` fail. -/
theorem C6_truncated_open (files : Files) (gen : Nat)
    (hnd : (files.map Prod.fst).Nodup)
    (hlast : (files.map Prod.fst).getLast? = some gen)
    (hwf : ∀ p ∈ files, SegWf p.2)
    (e0 : LogEntry) (he0 : SmallEntry e0) (m : Nat) (hm : m < (encodeEntry e0).length) :
    buildAll (appendToFile files gen ((encodeEntry e0).take m)) = buildAll files
    ∧ (∃ st, openStore (appendToFile files gen ((encodeEntry e0).take m)) = .ok st)
    ∧ (∀ bad, decodeEntry bad = .error .invalid →
        openStore (appendToFile files gen bad) = .error .invalid) := by
  have hpb : decodeEntry ((encodeEntry e0).take m) = .error .eof :=
    decodeEntry_take_prefix e0 he0 m hm
  have heq : buildAll (appendToFile files gen ((encodeEntry e0).take m)) = buildAll files :=
    buildAllAux_append_truncated _ hpb files gen [] 0 hnd hlast hwf
  refine ⟨heq, ?_, ?_⟩
  · obtain ⟨idx, g, hok⟩ := buildAllAux_wf_ok files hwf [] 0
    have hok' : buildAll files = .ok (idx, g) := hok
    have hall : buildAll (appendToFile files gen ((encodeEntry e0).take m)) = .ok (idx, g) :=
      heq.trans hok'
    exact ⟨_, by unfold openStore; rw [hall]⟩
  · intro bad hbad
    have herr : buildAll (appendToFile files gen bad) = .error .invalid :=
      buildAllAux_append_invalid _ hbad files gen [] 0 hnd hlast hwf
    unfold openStore
    rw [herr]

theorem C6_witness :
    ([(0, encodeEntry (.set [1] [10]))].map (Prod.fst (β := Bytes))).Nodup
    ∧ SmallEntry (.set [2] [20]) ∧ 7 < (encodeEntry (.set [2] [20])).length
    ∧ (buildAll (appendToFile [(0, encodeEntry (.set [1] [10]))] 0
          ((encodeEntry (.set [2] [20])).take 7))
        = buildAll [(0, encodeEntry (.set [1] [10]))]
      ∧ (∃ st, openStore (appendToFile [(0, encodeEntry (.set [1] [10]))] 0
          ((encodeEntry (.set [2] [20])).take 7)) = .ok st)
      ∧ (∀ bad, decodeEntry bad = .error .invalid →
          openStore (appendToFile [(0, encodeEntry (.set [1] [10]))] 0 bad)
            = .error .invalid)) := by
  refine ⟨by decide, by decide, by decide, ?_⟩
  refine C6_truncated_open [(0, encodeEntry (.set [1] [10]))] 0 (by decide) (by decide)
    ?_ (.set [2] [20]) (by decide) 7 (by decide)
  intro p hp
  simp only [List.mem_cons, List.not_mem_nil, or_false] at hp
  rw [hp]
  exact ⟨[.set [1] [10]], by simp, by decide⟩

/-- C7: `get` corruption detection.  When a key's index entry points at bytes
that decode to a `Set(_, v)` record, `get` returns `Ok(Some(v))`; when they
decode to any other command (a `Rm` tombstone), `get` returns a
`CorruptedLog` error. -/
theorem C7_get_corruption (st : KvState) (k : Bytes) (li : LogIndex) (f : Bytes)
    (hel : alookup st.index k = some li) (hf : alookup st.files li.gen = some f) :
    (∀ k' v n, decodeEntry (f.drop li.pos) = .ok (.set k' v, n) →
        st.get k = .ok (some v))
    ∧ (∀ k' n, decodeEntry (f.drop li.pos) = .ok (.rm k', n) →
        st.get k = .error .corruptedLog) := by
  constructor
  · intro k' v n hdec
    simp only [KvState.get, hel, hf, hdec]
  · intro k' n hdec
    simp only [KvState.get, hel, hf, hdec]

/-- A store whose only index entry points at a `Rm` tombstone record: the
shape `get` treats as log corruption. -/
def c7State : KvState :=
  { files := [(0, encodeEntry (.rm [1]))]
    index := [([1], ⟨0, 0, 13⟩)]
    gen := 0
    wpos := 13
    garbage := 0 }

theorem C7_witness :
    alookup c7State.index [1] = some ⟨0, 0, 13⟩
    ∧ alookup c7State.files 0 = some (encodeEntry (.rm [1]))
    ∧ decodeEntry ((encodeEntry (.rm [1])).drop 0) = .ok (.rm [1], 13)
    ∧ c7State.get [1] = .error .corruptedLog := by
  refine ⟨by decide, by decide, by decide, ?_⟩
  exact (C7_get_corruption c7State [1] ⟨0, 0, 13⟩ (encodeEntry (.rm [1]))
    (by decide) (by decide)).2 [1] 13 (by decide)

/-- C8 (counterexample): the claim that every successful `set` has a
non-empty key and value is false on the code: `WriteContext::set` performs no
validation, so `set("", "")` on a fresh store succeeds with no failing I/O,
and the log then contains a `Set` record with an empty key and an empty
value. -/
theorem C8_counterexample :
    (openFresh.setFallible [] [] none).1 = none
    ∧ (openFresh.setFallible [] [] none).2.files = [(0, encodeEntry (.set [] []))]
    ∧ ([] : Bytes).length = 0 := by
  decide

/-- C8 (amended): the engine never rejects a `set` on account of its key or
value: absent an injected I/O failure, `set` succeeds for every key and
value, including empty ones, and the appended record carries them
unchanged. -/
theorem C8_no_emptiness_validation (st : KvState) (k v : Bytes) :
    (st.setFallible k v none).1 = none
    ∧ (st.setFallible k v none).2.files
        = (st.set k v).files := by
  rw [setFallible_none]
  exact ⟨rfl, rfl⟩

/-- C9 (counterexample): `rm` of an absent key does not print the
`Key not found` sentinel.  The server reply carries the engine's
`KeyNotFound` display; the client binary prints its own error wrapper line
`Key-value store error …` and exits 1. -/
theorem C9_counterexample :
    clientRunRm (some (.errorMessage "Key 'key1' does not exist (Key not found)"))
      = (some ("Key-value store error " ++
          ("Key 'key1' does not exist (Key not found)" ++ " (Remote server error)")), 1)
    ∧ (clientRunRm (some (.errorMessage "Key 'key1' does not exist (Key not found)"))).1
        ≠ some "Key not found" := by
  constructor
  · rfl
  · decide

/-- C9 (amended): `get` of an absent key prints exactly the sentinel line
`Key not found` to stdout and exits 0; `rm` of an absent key exits with the
non-zero code 1 but prints the client binary's error-wrapper line — not the
sentinel. -/
theorem C9_absent_key_cli (m : String) :
    clientRunGet none = ("Key not found", 0)
    ∧ clientRunRm (some (.errorMessage m))
        = (some ("Key-value store error " ++ (m ++ " (Remote server error)")), 1)
    ∧ (clientRunRm (some (.errorMessage m))).2 ≠ 0 := by
  refine ⟨rfl, rfl, ?_⟩
  intro hc
  simp [clientRunRm, remove_req, kvsErrorDisplay] at hc

/-- A state holding one live entry with the garbage counter already at the
threshold, so one superseding `set` crosses it and invokes compaction. -/
def c10State : KvState :=
  { files := [(0, encodeEntry (.set [1] [10]))]
    index := [([1], ⟨0, 0, 22⟩)]
    gen := 0
    wpos := 22
    garbage := GARBAGE_THRESHOLD }

/-- C10 (counterexample): when compaction — invoked inside `set` after the
append, index insert and garbage update all succeeded — fails (here its first
`create_log`), `set` returns an error even though the in-memory index and the
garbage counter no longer hold their values from before the call. -/
theorem C10_counterexample :
    (c10State.setFallible [1] [9] (some .mergeStart)).1 = some .ioError
    ∧ (c10State.setFallible [1] [9] (some .mergeStart)).2.index ≠ c10State.index
    ∧ (c10State.setFallible [1] [9] (some .mergeStart)).2.garbage ≠ c10State.garbage := by
  decide

/-- C10 (amended): if `set` or `remove` fails before the index update — a
serialization or flush failure of the appended record, or `remove`'s
`KeyNotFound` check — the in-memory index and the garbage counter hold
exactly their values from before the call (the index is only updated after
the append and flush succeed).  A failure inside the compaction that a
successful append may trigger is not covered: the index and counter are
already updated when it happens (see the counterexample). -/
theorem C10_error_atomicity_amended (st : KvState) (k v : Bytes) (f : FailPoint)
    (hf : f = .serialize ∨ f = .flush) :
    ((st.setFallible k v (some f)).1 = some .ioError
      ∧ (st.setFallible k v (some f)).2.index = st.index
      ∧ (st.setFallible k v (some f)).2.garbage = st.garbage)
    ∧ ((st.removeFallible k (some f)).2.index = st.index
      ∧ (st.removeFallible k (some f)).2.garbage = st.garbage)
    ∧ (alookup st.index k = none →
        st.removeFallible k (some f) = (some .keyNotFound, st)) := by
  have hrm : (st.removeFallible k (some f)).2.index = st.index
      ∧ (st.removeFallible k (some f)).2.garbage = st.garbage := by
    rcases hf with rfl | rfl <;>
      · cases hp : alookup st.index k with
        | none =>
          unfold KvState.removeFallible
          rw [hp]
          exact ⟨rfl, rfl⟩
        | some p =>
          unfold KvState.removeFallible
          rw [hp]
          exact ⟨rfl, rfl⟩
  have hnf : alookup st.index k = none →
      st.removeFallible k (some f) = (some .keyNotFound, st) := by
    intro hn
    unfold KvState.removeFallible
    rw [hn]
  rcases hf with rfl | rfl
  · exact ⟨⟨rfl, rfl, rfl⟩, hrm, hnf⟩
  · exact ⟨⟨rfl, rfl, rfl⟩, hrm, hnf⟩

theorem C10_witness :
    (FailPoint.serialize = FailPoint.serialize ∨ FailPoint.serialize = FailPoint.flush)
    ∧ (((openFresh.setFallible [1] [2] (some .serialize)).1 = some .ioError
        ∧ (openFresh.setFallible [1] [2] (some .serialize)).2.index = openFresh.index
        ∧ (openFresh.setFallible [1] [2] (some .serialize)).2.garbage = openFresh.garbage)
      ∧ ((openFresh.removeFallible [1] (some .serialize)).2.index = openFresh.index
        ∧ (openFresh.removeFallible [1] (some .serialize)).2.garbage = openFresh.garbage)
      ∧ (alookup openFresh.index [1] = none →
          openFresh.removeFallible [1] (some .serialize) = (some .keyNotFound, openFresh))) :=
  ⟨Or.inl rfl, C10_error_atomicity_amended openFresh [1] [2] .serialize (Or.inl rfl)⟩

end KvsSpec
